import Mathlib

/-!
Verification of the Squardle solving engine
(`src/squardle/squardle-player.service.ts`, `words/index.ts`,
`src/types/squardle.types.ts`).

Modelling conventions:
* a word is a `List Char`; JS single-character strings (hint letters,
  cell letters) are `Char`; `toUpperCase` on them is `Char.toUpper`;
* JS `string[index]` is `List.get?`; an out-of-range access is modelled
  as a failed match (the comparison with a present letter is false);
* JS numbers are exact numbers (`Nat` / `Int` / `ℚ`); no floating point
  rounding is modelled;
* the word corpus files (`answersEn`, …) are not part of the engine: the
  definitions are parametrised by a `WordLists` environment exactly as
  `getWords` consumes it;
* exceptions are `Except Err`; the mutual recursion between
  `returnNextGuess` and `determineBestWord` is defined with an explicit
  fuel counter that decreases exactly at each nested `returnNextGuess`
  call, `Err.outOfFuel` marking exhaustion;
* `lodash.orderBy` and JS `Array.prototype.sort` are stable sorts; they
  are modelled by a stable insertion sort.
-/

namespace Squardle

inductive Direction
  | horizontal
  | vertical
deriving DecidableEq, Repr

inductive HintType
  | horizontalSimple
  | horizontalDouble
  | horizontalTriple
  | verticalSimple
  | verticalDouble
  | verticalTriple
  | orangeSimpleVerticalSimpleHorizontal
  | orangeDoubleVerticalSimpleHorizontal
  | orangeTripleVerticalSimpleHorizontal
  | orangeSimpleVerticalDoubleHorizontal
  | orangeDoubleVerticalDoubleHorizontal
  | orangeTripleVerticalDoubleHorizontal
  | orangeSimpleVerticalTripleHorizontal
  | orangeDoubleVerticalTripleHorizontal
  | orangeTripleVerticalTripleHorizontal
  | white
  | black
  | green
deriving DecidableEq, Repr

structure Hint where
  letter : Char
  type : HintType
deriving DecidableEq, Repr

structure Cell where
  x : Nat
  y : Nat
  letter : Option Char
  hints : List Hint
deriving DecidableEq, Repr

abbrev Board := List (List Cell)

inductive Language
  | en
  | br
  | es
  | de
  | sv
deriving DecidableEq, Repr

structure BoardState where
  guessesRemaining : Int
  nextGuessIndex : Nat
  language : Language
  board : Board
deriving DecidableEq, Repr

abbrev Word := List Char

structure LetterIndex where
  index : Nat
  letter : Char
deriving DecidableEq, Repr

structure WordsFilter where
  includes : List Char
  excludes : List Char
  excludingPositions : List LetterIndex
  matchingLetters : List LetterIndex
deriving DecidableEq, Repr

structure WordScoreResult where
  word : Word
  confidence : ℚ
deriving DecidableEq, Repr

structure WordScoreResultDirection where
  word : Word
  confidence : ℚ
  direction : Direction
deriving DecidableEq, Repr

inductive Err
  | unsupportedLanguage
  | mixedWordLengths
  | conflictLetter
  | invalidGuessIndex
  | boardIndexOutOfRange
  | brokenNonNull
  | outOfFuel
deriving DecidableEq, Repr

/-- `words/index.ts`: the four corpus lists the engine can consume. -/
structure WordLists where
  answersBr : List Word
  wordsBr : List Word
  answersEn : List Word
  wordsEn : List Word

inductive WordsType
  | answers
  | all
deriving DecidableEq, Repr

/-- `getWords` from `words/index.ts`: BR and EN are served, every other
language raises `BadRequestException`. -/
def getWords (wl : WordLists) (language : Language) (type : WordsType) :
    Except Err (List Word) :=
  match language with
  | .br => .ok (if type = .answers then wl.answersBr else wl.wordsBr)
  | .en => .ok (if type = .answers then wl.answersEn else wl.wordsEn)
  | _ => .error .unsupportedLanguage

/-- JS `word[index].toUpperCase()` where the result is compared against
another letter: out of range gives `none`, which matches nothing. -/
def upperAt (w : Word) (i : Nat) : Option Char :=
  (w.get? i).map Char.toUpper

/-- JS `word.toUpperCase().includes(letter.toUpperCase())`. -/
def containsCI (w : Word) (c : Char) : Bool :=
  (w.map Char.toUpper).contains c.toUpper

/-- `applyWordsFilter` (squardle-player.service.ts:296-333): keeps a word
iff all matching-letter constraints hold, all required letters occur,
no excluded position matches and no excluded letter occurs. -/
def applyWordsFilter (candidateWords : List Word) (wordsFilter : WordsFilter) :
    List Word :=
  candidateWords.filter fun word =>
    (wordsFilter.matchingLetters.all fun li =>
        upperAt word li.index == some li.letter.toUpper) &&
    (wordsFilter.includes.all fun letter => containsCI word letter) &&
    (!(wordsFilter.excludingPositions.any fun li =>
        upperAt word li.index == some li.letter.toUpper)) &&
    (!(wordsFilter.excludes.any fun letter => containsCI word letter))

/-- The Candidate Filter retention rule, written from the specification
text: "A word is retained iff, case-insensitively: every
required-at-position pair matches; every required letter occurs somewhere
in the word; no forbidden-at-position pair matches; no forbidden letter
occurs anywhere in the word." -/
def retainedBySpec (s : WordsFilter) (w : Word) : Prop :=
  (∀ li ∈ s.matchingLetters, upperAt w li.index = some li.letter.toUpper) ∧
  (∀ c ∈ s.includes, containsCI w c = true) ∧
  (∀ li ∈ s.excludingPositions, upperAt w li.index ≠ some li.letter.toUpper) ∧
  (∀ c ∈ s.excludes, containsCI w c = false)

instance (s : WordsFilter) (w : Word) : Decidable (retainedBySpec s w) := by
  unfold retainedBySpec
  infer_instance

theorem applyWordsFilter_pred_iff (s : WordsFilter) (w : Word) :
    ((s.matchingLetters.all fun li =>
        upperAt w li.index == some li.letter.toUpper) &&
      (s.includes.all fun letter => containsCI w letter) &&
      (!(s.excludingPositions.any fun li =>
        upperAt w li.index == some li.letter.toUpper)) &&
      (!(s.excludes.any fun letter => containsCI w letter))) = true ↔
      retainedBySpec s w := by
  simp [retainedBySpec, List.all_eq_true, List.any_eq_true,
    Bool.and_eq_true, Bool.not_eq_true]
  tauto

/-- Stable insertion sort: `before a b` holds when `a` must strictly
precede `b`; elements the comparator ties keep their original relative
order, matching the stable JS `Array.prototype.sort` and
`lodash.orderBy`. -/
def insertBefore {α : Type} (before : α → α → Bool) (x : α) :
    List α → List α
  | [] => [x]
  | y :: ys => if before x y then x :: y :: ys else y :: insertBefore before x ys

def stableSort {α : Type} (before : α → α → Bool) : List α → List α
  | [] => []
  | x :: xs => insertBefore before x (stableSort before xs)

structure CurrentCells where
  vertical : List Cell
  horizontal : List Cell

/-- `getCurrentCells`: the five cells of the active column (sorted by `y`)
and the active row (sorted by `x`). -/
def getCurrentCells (boardState : BoardState) : CurrentCells :=
  let currentGuessIndex := boardState.nextGuessIndex
  { vertical := stableSort (fun a b => a.y < b.y)
      (boardState.board.flatMap fun row =>
        row.filter fun cell => cell.x == currentGuessIndex)
    horizontal := stableSort (fun a b => a.x < b.x)
      (boardState.board.flatMap fun row =>
        row.filter fun cell => cell.y == currentGuessIndex) }

/-- All letters carrying a Black hint anywhere on the board. -/
def blackLetters (board : Board) : List Char :=
  ((board.flatMap fun row => row.flatMap fun cell => cell.hints).filter
    fun hint => hint.type == HintType.black).map fun hint => hint.letter

/-- One hint's contribution inside `createWordFilter`'s switch:
letters pushed to `includes`, to `excludes`, and pairs pushed to
`excludingPositions`. -/
def hintEffect (direction : Direction) (index : Nat) (h : Hint) :
    List Char × List Char × List LetterIndex :=
  match h.type with
  | .green => ([], [], [])
  | .horizontalSimple | .horizontalDouble | .horizontalTriple =>
    if direction = .horizontal then ([h.letter], [], [⟨index, h.letter⟩])
    else ([], [h.letter], [])
  | .verticalSimple | .verticalDouble | .verticalTriple =>
    if direction = .vertical then ([h.letter], [], [⟨index, h.letter⟩])
    else ([], [h.letter], [])
  | .orangeSimpleVerticalSimpleHorizontal
  | .orangeDoubleVerticalSimpleHorizontal
  | .orangeTripleVerticalSimpleHorizontal
  | .orangeSimpleVerticalDoubleHorizontal
  | .orangeDoubleVerticalDoubleHorizontal
  | .orangeTripleVerticalDoubleHorizontal
  | .orangeSimpleVerticalTripleHorizontal
  | .orangeDoubleVerticalTripleHorizontal
  | .orangeTripleVerticalTripleHorizontal =>
    ([h.letter], [], [⟨index, h.letter⟩])
  | .white => ([], [h.letter], [])
  | .black => ([], [], [])

structure HintLists where
  includes : List Char
  excludes : List Char
  excludingPositions : List LetterIndex

/-- The per-cell, per-hint accumulation of `createWordFilter`, in
push order. -/
def collectHintLists (direction : Direction) (cells : List Cell) :
    HintLists :=
  let triples := cells.enum.flatMap fun p =>
    p.2.hints.map fun h => hintEffect direction p.1 h
  { includes := triples.flatMap fun t => t.1
    excludes := triples.flatMap fun t => t.2.1
    excludingPositions := triples.flatMap fun t => t.2.2 }

def dedupFirstAux {α : Type} [DecidableEq α] (seen : List α) :
    List α → List α
  | [] => []
  | a :: rest =>
    if a ∈ seen then dedupFirstAux seen rest
    else a :: dedupFirstAux (a :: seen) rest

/-- `[...new Set(xs)]`: deduplication keeping first occurrences. -/
def dedupFirst {α : Type} [DecidableEq α] (l : List α) : List α :=
  dedupFirstAux [] l

/-- `createWordFilter` (squardle-player.service.ts:199-294). -/
def createWordFilter (cells : List Cell) (direction : Direction)
    (boardState : BoardState) : WordsFilter :=
  let hl := collectHintLists direction cells
  { includes := dedupFirst hl.includes
    excludes := dedupFirst (blackLetters boardState.board ++ hl.excludes)
    excludingPositions := hl.excludingPositions
    matchingLetters := cells.enum.filterMap fun p =>
      p.2.letter.map fun l => ⟨p.1, l⟩ }

structure DirectionFilters where
  horizontal : WordsFilter
  vertical : WordsFilter

def createWordsFilters (boardState : BoardState) : DirectionFilters :=
  let cc := getCurrentCells boardState
  { horizontal := createWordFilter cc.horizontal .horizontal boardState
    vertical := createWordFilter cc.vertical .vertical boardState }

def isBlockedCoord (x y : Nat) : Bool :=
  (x == 1 && y == 1) || (x == 1 && y == 3) ||
  (x == 3 && y == 1) || (x == 3 && y == 3)

/-- `isBoardFull`: every cell whose stored coordinates are not blocked
holds a letter. -/
def isBoardFull (board : Board) : Bool :=
  ((board.flatMap id).filter fun c => !(isBlockedCoord c.x c.y)).all
    fun cell => cell.letter.isSome

/-- The cell stored at row `row`, column `col` (JS `board[row][col]`). -/
def cellAt (board : Board) (row col : Nat) : Option Cell :=
  (board.get? row).bind fun r => r.get? col

def setCellLetter (board : Board) (row col : Nat) (l : Char) : Board :=
  board.modify (fun r => r.modify (fun c => { c with letter := some l }) col) row

/-- The horizontal write loop of `insertWordInBoard`: a differing
confirmed letter raises the conflict error, an empty cell is written,
a matching confirmed letter is left in place; an out-of-range access
(impossible on a well-formed board with a 5-letter word) is the
out-of-range error. -/
def insertLoopH (row : Nat) : Nat → Word → Board → Except Err Board
  | _, [], board => .ok board
  | i, l :: rest, board =>
    match cellAt board row i with
    | none => .error .boardIndexOutOfRange
    | some cell =>
      match cell.letter with
      | some existing =>
        if existing ≠ l.toUpper then .error .conflictLetter
        else insertLoopH row (i + 1) rest board
      | none =>
        insertLoopH row (i + 1) rest (setCellLetter board row i l.toUpper)

/-- The vertical write loop: same conflict check, but the cell is
written unconditionally. -/
def insertLoopV (col : Nat) : Nat → Word → Board → Except Err Board
  | _, [], board => .ok board
  | i, l :: rest, board =>
    match cellAt board i col with
    | none => .error .boardIndexOutOfRange
    | some cell =>
      match cell.letter with
      | some existing =>
        if existing ≠ l.toUpper then .error .conflictLetter
        else insertLoopV col (i + 1) rest (setCellLetter board i col l.toUpper)
      | none =>
        insertLoopV col (i + 1) rest (setCellLetter board i col l.toUpper)

/-- `insertWordInBoard` (squardle-player.service.ts:497-541), without the
console logging. -/
def insertWordInBoard (boardState : BoardState) (word : Word)
    (direction : Direction) : Except Err Board :=
  match direction with
  | .horizontal => insertLoopH boardState.nextGuessIndex 0 word boardState.board
  | .vertical => insertLoopV boardState.nextGuessIndex 0 word boardState.board

def guessSequence : List Nat := [0, 2, 4]

def getNextIndex (currentGuessIndex : Nat) : Except Err Nat :=
  match guessSequence.indexOf? currentGuessIndex with
  | none => .error .invalidGuessIndex
  | some i =>
    match guessSequence.get? ((i + 1) % guessSequence.length) with
    | some v => .ok v
    | none => .error .invalidGuessIndex

/-- `checkIfWordFits` (squardle-player.service.ts:115-157): insert the
word, succeed on a full board, otherwise require that for each guess
index the opposite-axis filter still retains at least one corpus word. -/
def checkIfWordFits (word : Word) (direction : Direction)
    (boardState : BoardState) (allCandidateWords : List Word) :
    Except Err Bool :=
  match insertWordInBoard boardState word direction with
  | .error e => .error e
  | .ok simulatedBoard =>
    if isBoardFull simulatedBoard then .ok true
    else .ok ([0, 2, 4].all fun index =>
      let wordsFilters := createWordsFilters
        { boardState with
          board := simulatedBoard
          nextGuessIndex := index
          guessesRemaining := boardState.guessesRemaining - 1 }
      let filterToCheck := if direction = .horizontal then
          wordsFilters.vertical else wordsFilters.horizontal
      !(applyWordsFilter allCandidateWords filterToCheck).isEmpty)

/-- Number of words with letter `c` at position `i` (the per-position
statistics map of `determineWordsScores`). -/
def countLetterAt (candidateWords : List Word) (i : Nat) (c : Char) : Nat :=
  candidateWords.countP fun w => w.get? i == some c

def wordScore (candidateWords : List Word) (w : Word) : Nat :=
  (w.enum.map fun p => countLetterAt candidateWords p.1 p.2).sum

def byConfidenceDesc (a b : WordScoreResult) : Bool :=
  b.confidence < a.confidence

/-- `determineWordsScores` (squardle-player.service.ts:557-602). The JS
division `score / (totalWords * wordLength)` is exact rational division,
written `mkRat` (equal to `/` on ℚ by `Rat.mkRat_eq_div`; `mkRat` keeps
the definition kernel-computable). -/
def determineWordsScores (candidateWords : List Word) :
    Except Err (List WordScoreResult) :=
  if candidateWords.isEmpty then .ok []
  else if (dedupFirst (candidateWords.map List.length)).length > 1 then
    .error .mixedWordLengths
  else
    let totalWords := candidateWords.length
    let wordLength := (candidateWords.head?.map List.length).getD 0
    .ok (stableSort byConfidenceDesc (candidateWords.map fun w =>
      { word := w
        confidence := mkRat (wordScore candidateWords w)
          (totalWords * wordLength) }))

abbrev RecurFn :=
  BoardState → Except Err (Option WordScoreResultDirection)

/-- The simulation loop of `determineBestWord`
(`for (let i = 0; i < maxIterations; i++)`): `steps` counts the
remaining iterations (starting at `maxIterations = 6`), `i` the
completed ones. -/
def simLoop (recur : RecurFn) (origState : BoardState) :
    Nat → Nat → Board → Nat → WordScoreResultDirection → Except Err Bool
  | 0, _, _, _, _ => .ok true
  | steps + 1, i, simulatedBoard, currentGuessIndex, simulationWord =>
    match insertWordInBoard
        { language := origState.language
          guessesRemaining := origState.guessesRemaining
          nextGuessIndex := currentGuessIndex
          board := simulatedBoard }
        simulationWord.word simulationWord.direction with
    | .error e => .error e
    | .ok inserted =>
      if isBoardFull inserted then .ok true
      else
        match getNextIndex currentGuessIndex with
        | .error e => .error e
        | .ok nextIndex =>
          match recur
              { language := origState.language
                guessesRemaining := origState.guessesRemaining - (i : Int) - 1
                nextGuessIndex := nextIndex
                board := inserted } with
          | .error e => .error e
          | .ok none => .ok false
          | .ok (some nextGuess) =>
            simLoop recur origState steps (i + 1) inserted nextIndex nextGuess

/-- The `for (const { word, confidence } of bestWordScore)` loop of
`determineBestWord`: each candidate restarts the simulation from the
original board. -/
def wordLoop (recur : RecurFn) (boardState : BoardState)
    (direction : Direction) : List WordScoreResult →
    Except Err (Option WordScoreResult)
  | [] => .ok none
  | ws :: rest =>
    match simLoop recur boardState 6 0 boardState.board
        boardState.nextGuessIndex ⟨ws.word, ws.confidence, direction⟩ with
    | .error e => .error e
    | .ok valid =>
      if valid then .ok (some ws)
      else wordLoop recur boardState direction rest

/-- `determineBestWord` (squardle-player.service.ts:418-495). -/
def determineBestWordBody (recur : RecurFn) (candidateWords : List Word)
    (boardState : BoardState) (direction : Direction) :
    Except Err (Option WordScoreResult) :=
  match determineWordsScores candidateWords with
  | .error e => .error e
  | .ok [] => .ok none
  | .ok (top :: tail) =>
    if top.confidence = 1 then .ok (some top)
    else wordLoop recur boardState direction (top :: tail)

/-- The final section of `determineBestWordOverall`: compare the best
words of the two directions; the strict `>` sends exact confidence ties
to the vertical side. The TS non-null assertion on `bestResult` is
modelled as `Err.brokenNonNull` (unreachable for corpora of nonempty
words). -/
def overallSection (recur : RecurFn)
    (candidateWordsHorizontal candidateWordsVertical : List Word)
    (boardState : BoardState) :
    Except Err (Option WordScoreResultDirection) :=
  match determineBestWordBody recur
      candidateWordsHorizontal boardState .horizontal with
  | .error e => .error e
  | .ok bestWordHorizontal =>
    match determineBestWordBody recur
        candidateWordsVertical boardState .vertical with
    | .error e => .error e
    | .ok bestWordVertical =>
      match bestWordHorizontal, bestWordVertical with
      | none, none => .ok none
      | bH, bV =>
        let confH := (bH.map fun r => r.confidence).getD 0
        let confV := (bV.map fun r => r.confidence).getD 0
        let bestResultDirection :=
          if confH > confV then Direction.horizontal else Direction.vertical
        let bestResult := if bestResultDirection = .horizontal then bH else bV
        match bestResult with
        | some r => .ok (some ⟨r.word, r.confidence, bestResultDirection⟩)
        | none => .error .brokenNonNull

/-- The number of unfilled cells of a line. -/
def missingCount (cells : List Cell) : Nat :=
  (cells.filter fun cell => cell.letter.isNone).length

/-- `determineBestWordOverall` (squardle-player.service.ts:383-410):
prefer the direction with more missing letters, falling through to the
comparison section when it yields nothing. -/
def determineBestWordOverallBody (recur : RecurFn)
    (candidateWordsHorizontal candidateWordsVertical : List Word)
    (boardState : BoardState) :
    Except Err (Option WordScoreResultDirection) :=
  if missingCount (getCurrentCells boardState).horizontal >
      missingCount (getCurrentCells boardState).vertical then
    match determineBestWordBody recur candidateWordsHorizontal
        boardState .horizontal with
    | .error e => .error e
    | .ok (some bestHorizontalWord) =>
      .ok (some ⟨bestHorizontalWord.word, bestHorizontalWord.confidence,
        .horizontal⟩)
    | .ok none =>
      overallSection recur candidateWordsHorizontal
        candidateWordsVertical boardState
  else if missingCount (getCurrentCells boardState).horizontal <
      missingCount (getCurrentCells boardState).vertical then
    match determineBestWordBody recur candidateWordsVertical
        boardState .vertical with
    | .error e => .error e
    | .ok (some bestVerticalWord) =>
      .ok (some ⟨bestVerticalWord.word, bestVerticalWord.confidence,
        .vertical⟩)
    | .ok none =>
      overallSection recur candidateWordsHorizontal
        candidateWordsVertical boardState
  else
    overallSection recur candidateWordsHorizontal
      candidateWordsVertical boardState

/-- `candidateWords.filter((word) => this.checkIfWordFits(...))`,
in the JS evaluation order (the first exception propagates). -/
def filterFits (direction : Direction) (boardState : BoardState)
    (allCandidateWords : List Word) : List Word → Except Err (List Word)
  | [] => .ok []
  | w :: rest =>
    match checkIfWordFits w direction boardState allCandidateWords with
    | .error e => .error e
    | .ok fits =>
      match filterFits direction boardState allCandidateWords rest with
      | .error e => .error e
      | .ok tail => .ok (if fits then w :: tail else tail)

/-- `returnNextGuess` (squardle-player.service.ts:58-113) with the
recursive call abstracted as `recur`. -/
def returnNextGuessBody (wl : WordLists) (recur : RecurFn)
    (boardState : BoardState) :
    Except Err (Option WordScoreResultDirection) :=
  match getWords wl boardState.language .answers with
  | .error e => .error e
  | .ok candidateWords =>
    match filterFits .horizontal boardState candidateWords
        (applyWordsFilter candidateWords
          (createWordsFilters boardState).horizontal) with
    | .error e => .error e
    | .ok deepFilteredCandidateWordsHorizontal =>
      match filterFits .vertical boardState candidateWords
          (applyWordsFilter candidateWords
            (createWordsFilters boardState).vertical) with
      | .error e => .error e
      | .ok deepFilteredCandidateWordsVertical =>
        if deepFilteredCandidateWordsHorizontal.isEmpty then .ok none
        else if deepFilteredCandidateWordsVertical.isEmpty then .ok none
        else
          determineBestWordOverallBody recur
            deepFilteredCandidateWordsHorizontal
            deepFilteredCandidateWordsVertical boardState

/-- The mutual recursion `returnNextGuess` / `determineBestWord`,
indexed by fuel: each nested `returnNextGuess` call consumes one unit,
so fuel `n` allows a nesting depth of `n`. -/
def returnNextGuessF (wl : WordLists) : Nat → BoardState →
    Except Err (Option WordScoreResultDirection)
  | 0, _ => .error .outOfFuel
  | fuel + 1, boardState =>
    returnNextGuessBody wl (returnNextGuessF wl fuel) boardState

def determineBestWordF (wl : WordLists) (fuel : Nat)
    (candidateWords : List Word) (boardState : BoardState)
    (direction : Direction) : Except Err (Option WordScoreResult) :=
  determineBestWordBody (returnNextGuessF wl fuel) candidateWords
    boardState direction

def determineBestWordOverallF (wl : WordLists) (fuel : Nat)
    (candidateWordsHorizontal candidateWordsVertical : List Word)
    (boardState : BoardState) :
    Except Err (Option WordScoreResultDirection) :=
  determineBestWordOverallBody (returnNextGuessF wl fuel)
    candidateWordsHorizontal candidateWordsVertical boardState

/-- The runtime shape of `playNextGuess`'s result: the virgin-board
branch returns a bare `WordScoreResult`, the general branch a
direction-tagged one. -/
inductive PlayResult
  | plain (r : WordScoreResult)
  | directed (r : WordScoreResultDirection)
deriving DecidableEq, Repr

/-- `playNextGuess` (squardle-player.service.ts:36-56). -/
def playNextGuessF (wl : WordLists) (fuel : Nat)
    (boardState : BoardState) : Except Err (Option PlayResult) :=
  if boardState.board.all fun row =>
      row.all fun cell => cell.hints.isEmpty then
    match getWords wl boardState.language .answers with
    | .error e => .error e
    | .ok totalWords =>
      match determineWordsScores totalWords with
      | .error e => .error e
      | .ok wordScores => .ok (wordScores.head?.map PlayResult.plain)
  else if isBoardFull boardState.board then .ok none
  else
    match returnNextGuessF wl fuel boardState with
    | .error e => .error e
    | .ok r => .ok (r.map PlayResult.directed)

end Squardle

namespace Squardle

/-- C1: the Candidate Filter returns exactly the words of the input list
retained by the specification's rule, in their original relative order
(the output is the sublist of retained words). -/
theorem applyWordsFilter_correct (candidateWords : List Word)
    (s : WordsFilter) :
    applyWordsFilter candidateWords s =
      candidateWords.filter (fun w => decide (retainedBySpec s w)) ∧
    (applyWordsFilter candidateWords s).Sublist candidateWords ∧
    ∀ w, w ∈ applyWordsFilter candidateWords s ↔
      w ∈ candidateWords ∧ retainedBySpec s w := by
  have hpt : ∀ w ∈ candidateWords,
      ((s.matchingLetters.all fun li =>
          upperAt w li.index == some li.letter.toUpper) &&
        (s.includes.all fun letter => containsCI w letter) &&
        (!(s.excludingPositions.any fun li =>
          upperAt w li.index == some li.letter.toUpper)) &&
        (!(s.excludes.any fun letter => containsCI w letter))) =
        decide (retainedBySpec s w) := by
    intro w _
    rw [Bool.eq_iff_iff, decide_eq_true_eq]
    exact applyWordsFilter_pred_iff s w
  have heq : applyWordsFilter candidateWords s =
      candidateWords.filter (fun w => decide (retainedBySpec s w)) := by
    unfold applyWordsFilter
    exact List.filter_congr hpt
  refine ⟨heq, ?_, ?_⟩
  · rw [heq]; exact List.filter_sublist candidateWords
  · intro w
    rw [heq]
    simp [List.mem_filter]

end Squardle

namespace Squardle

/-- A structurally well-formed 5×5 board: five rows of five cells whose
stored coordinates match their positions (`board[y][x]` has that `x` and
`y`). -/
def wellFormedBoard (b : Board) : Bool :=
  b.length == 5 && b.enum.all fun p =>
    p.2.length == 5 && p.2.enum.all fun q =>
      q.2.x == q.1 && q.2.y == p.1

theorem wellFormed_length {b : Board} (h : wellFormedBoard b = true) :
    b.length = 5 := by
  unfold wellFormedBoard at h
  rw [Bool.and_eq_true] at h
  simpa using h.1

theorem wellFormed_row {b : Board} (h : wellFormedBoard b = true)
    {y : Nat} {row : List Cell} (hrow : b.get? y = some row) :
    row.length = 5 ∧
      ∀ {x : Nat} {c : Cell}, row.get? x = some c → c.x = x ∧ c.y = y := by
  unfold wellFormedBoard at h
  rw [Bool.and_eq_true, List.all_eq_true] at h
  have hmem : ((y, row) : Nat × List Cell) ∈ b.enum :=
    List.mem_enum_iff_getElem?.mpr (by rw [← List.get?_eq_getElem?]; exact hrow)
  have h3 := h.2 _ hmem
  rw [Bool.and_eq_true, List.all_eq_true] at h3
  refine ⟨by simpa using h3.1, ?_⟩
  intro x c hc
  have hcm : ((x, c) : Nat × Cell) ∈ row.enum :=
    List.mem_enum_iff_getElem?.mpr (by rw [← List.get?_eq_getElem?]; exact hc)
  have h4 := h3.2 _ hcm
  rw [Bool.and_eq_true] at h4
  exact ⟨by simpa using h4.1, by simpa using h4.2⟩

theorem isBoardFull_iff (b : Board) :
    isBoardFull b = true ↔
      ∀ c ∈ b.flatMap id, isBlockedCoord c.x c.y = false →
        c.letter.isSome = true := by
  unfold isBoardFull
  rw [List.all_eq_true]
  constructor
  · intro h c hc hbl
    exact h c (List.mem_filter.mpr ⟨hc, by simp [hbl]⟩)
  · intro h c hc
    obtain ⟨hc1, hc2⟩ := List.mem_filter.mp hc
    exact h c hc1 (by simpa using hc2)

theorem exists_cell_iff_chain {b : Board} (h : wellFormedBoard b = true)
    {x y : Nat} (hx : x < 5) (hy : y < 5) :
    (∃ row cell, b.get? y = some row ∧ row.get? x = some cell ∧
      cell.letter.isSome = true) ↔
    ((b.get? y).bind fun row => (row.get? x).bind fun c => c.letter) ≠
      none := by
  have hylen : y < b.length := by rw [wellFormed_length h]; exact hy
  have hrow : b.get? y = some b[y] := by
    rw [List.get?_eq_getElem?]
    exact List.getElem?_eq_getElem hylen
  have hxlen : x < b[y].length := by
    rw [(wellFormed_row h hrow).1]
    exact hx
  have hcell : b[y].get? x = some (b[y])[x] := by
    rw [List.get?_eq_getElem?]
    exact List.getElem?_eq_getElem hxlen
  constructor
  · rintro ⟨row, cell, hr, hcx, hl⟩
    have : ((b.get? y).bind fun row => (row.get? x).bind fun c => c.letter) =
        cell.letter := by
      rw [List.get?_eq_getElem?] at hr
      rw [List.get?_eq_getElem?] at hcx
      simp [hr, hcx]
    rw [this]
    rw [Option.isSome_iff_ne_none] at hl
    exact hl
  · intro hne
    have hch : ((b.get? y).bind fun row => (row.get? x).bind fun c => c.letter) =
        (b[y])[x].letter := by
      have hrow2 := hrow
      have hcell2 := hcell
      rw [List.get?_eq_getElem?] at hrow2
      rw [List.get?_eq_getElem?] at hcell2
      simp [hrow2, hcell2]
    rw [hch] at hne
    refine ⟨b[y], (b[y])[x], hrow, hcell, ?_⟩
    rw [Option.isSome_iff_ne_none]
    exact hne

/-- C6: on a well-formed 5×5 board, `isBoardFull` is true iff every cell
at non-blocked coordinates holds a letter; boards agreeing on the letters
of non-blocked cells get the same result, so the blocked cells never
affect it. -/
theorem isBoardFull_correct (b : Board) (h : wellFormedBoard b = true) :
    (isBoardFull b = true ↔
      ∀ x y : Nat, x < 5 → y < 5 → isBlockedCoord x y = false →
        ∃ row cell, b.get? y = some row ∧ row.get? x = some cell ∧
          cell.letter.isSome = true) ∧
    (∀ b2 : Board, wellFormedBoard b2 = true →
      (∀ x y : Nat, x < 5 → y < 5 → isBlockedCoord x y = false →
        ((b.get? y).bind fun row => (row.get? x).bind fun c => c.letter) =
          ((b2.get? y).bind fun row => (row.get? x).bind fun c => c.letter)) →
      isBoardFull b = isBoardFull b2)
    := by
  have main : ∀ bb : Board, wellFormedBoard bb = true →
      (isBoardFull bb = true ↔
        ∀ x y : Nat, x < 5 → y < 5 → isBlockedCoord x y = false →
          ∃ row cell, bb.get? y = some row ∧ row.get? x = some cell ∧
            cell.letter.isSome = true) := by
    intro bb hbb
    rw [isBoardFull_iff]
    constructor
    · intro hfull x y hx hy hbl
      have hylen : y < bb.length := by rw [wellFormed_length hbb]; exact hy
      have hrow : bb.get? y = some bb[y] := by
        rw [List.get?_eq_getElem?]
        exact List.getElem?_eq_getElem hylen
      have hxlen : x < bb[y].length := by
        rw [(wellFormed_row hbb hrow).1]
        exact hx
      have hcell : bb[y].get? x = some (bb[y])[x] := by
        rw [List.get?_eq_getElem?]
        exact List.getElem?_eq_getElem hxlen
      have hco := (wellFormed_row hbb hrow).2 hcell
      refine ⟨bb[y], (bb[y])[x], hrow, hcell, ?_⟩
      refine hfull _ ?_ ?_
      · rw [List.mem_flatMap]
        exact ⟨bb[y], List.getElem_mem hylen, List.getElem_mem hxlen⟩
      · rw [hco.1, hco.2]
        exact hbl
    · intro hx c hc hbl
      rw [List.mem_flatMap] at hc
      obtain ⟨row, hrowmem, hcmem⟩ := hc
      simp only [id_eq] at hcmem
      obtain ⟨y, hy⟩ := List.mem_iff_getElem?.mp hrowmem
      obtain ⟨x, hxg⟩ := List.mem_iff_getElem?.mp hcmem
      have hrow : bb.get? y = some row := by rw [List.get?_eq_getElem?]; exact hy
      have hcg : row.get? x = some c := by rw [List.get?_eq_getElem?]; exact hxg
      have hco := (wellFormed_row hbb hrow).2 hcg
      have hylt : y < 5 := by
        have := (List.getElem?_eq_some.mp hy).1
        rw [wellFormed_length hbb] at this
        exact this
      have hxlt : x < 5 := by
        have h9 := (List.getElem?_eq_some.mp hxg).1
        rw [(wellFormed_row hbb hrow).1] at h9
        exact h9
      obtain ⟨row2, cell2, hr2, hc2, hl2⟩ := hx x y hxlt hylt (by
        rw [← hco.1, ← hco.2]; exact hbl)
      rw [hrow] at hr2
      have : row2 = row := by injection hr2 with hh; exact hh.symm
      subst this
      rw [hcg] at hc2
      have : cell2 = c := by injection hc2 with hh; exact hh.symm
      subst this
      exact hl2
  refine ⟨main b h, ?_⟩
  intro b2 h2 hagree
  have iff1 := main b h
  have iff2 := main b2 h2
  rcases hb : isBoardFull b with _ | _
  · rcases hb2 : isBoardFull b2 with _ | _
    · rfl
    · exfalso
      have hfull2 := iff2.mp hb2
      have : isBoardFull b = true := by
        rw [iff1]
        intro x y hxlt hylt hbl
        rw [exists_cell_iff_chain h hxlt hylt, hagree x y hxlt hylt hbl,
          ← exists_cell_iff_chain h2 hxlt hylt]
        exact hfull2 x y hxlt hylt hbl
      rw [hb] at this
      exact Bool.false_ne_true this
  · rcases hb2 : isBoardFull b2 with _ | _
    · exfalso
      have hfull1 := iff1.mp hb
      have : isBoardFull b2 = true := by
        rw [iff2]
        intro x y hxlt hylt hbl
        rw [exists_cell_iff_chain h2 hxlt hylt, ← hagree x y hxlt hylt hbl,
          ← exists_cell_iff_chain h hxlt hylt]
        exact hfull1 x y hxlt hylt hbl
      rw [hb2] at this
      exact Bool.false_ne_true this
    · rfl

/-- A concrete well-formed board with every non-blocked cell filled. -/
def fullBoard : Board :=
  (List.range 5).map fun y => (List.range 5).map fun x =>
    ⟨x, y, if isBlockedCoord x y then none else some (Char.ofNat 65), []⟩

theorem isBoardFull_correct_witness :
    wellFormedBoard fullBoard = true ∧ isBoardFull fullBoard = true := by
  refine ⟨by decide, (isBoardFull_correct fullBoard (by decide)).1.mpr ?_⟩
  intro x y hx hy
  interval_cases x <;> interval_cases y <;>
    first
    | exact fun hbl => absurd hbl (by decide)
    | exact fun hbl => ⟨_, _, rfl, rfl, rfl⟩

theorem cellAt_set_ne (board : Board) (r c : Nat) (l : Char) (r2 c2 : Nat)
    (hne : r ≠ r2 ∨ c ≠ c2) :
    cellAt (setCellLetter board r c l) r2 c2 = cellAt board r2 c2 := by
  unfold cellAt setCellLetter
  simp only [List.get?_eq_getElem?, List.getElem?_modify]
  rcases hrow : board[r2]? with _ | row
  · rcases hne with hne | hne <;> simp [hrow]
  · rcases hne with hne | hne
    · simp [hrow, hne]
    · by_cases hreq : r = r2
      · subst hreq
        simp only [if_pos rfl, hrow, Option.map_some, Option.some_bind]
        simp [List.getElem?_modify, hne]
      · simp [hrow, hreq]

theorem cellAt_set_eq (board : Board) (r c : Nat) (l : Char) :
    cellAt (setCellLetter board r c l) r c =
      (cellAt board r c).map fun cell => { cell with letter := some l } := by
  unfold cellAt setCellLetter
  simp only [List.get?_eq_getElem?, List.getElem?_modify]
  rcases hrow : board[r]? with _ | row
  · simp [hrow]
  · simp only [hrow, if_pos rfl, Option.map_some, Option.some_bind]
    simp only [List.getElem?_modify, if_true]
    rcases hcell : row[c]? with _ | cell <;> simp [hcell]

/-- Full behaviour of the horizontal insertion loop on in-range
positions: the conflict-error characterisation, totality (conflict error
or success), the written line read back, and the frame outside the
written segment. -/
theorem insertLoopH_spec (row : Nat) :
    ∀ (letters : Word) (i : Nat) (board : Board),
      (∀ j, j < letters.length → (cellAt board row (i + j)).isSome = true) →
      ((insertLoopH row i letters board = .error .conflictLetter ↔
        ∃ j l cell e, letters.get? j = some l ∧
          cellAt board row (i + j) = some cell ∧ cell.letter = some e ∧
          e ≠ l.toUpper) ∧
      ((∃ b2, insertLoopH row i letters board = .ok b2) ∨
        insertLoopH row i letters board = .error .conflictLetter) ∧
      (∀ b2, insertLoopH row i letters board = .ok b2 →
        (∀ j l, letters.get? j = some l →
          ∃ cell cell2, cellAt board row (i + j) = some cell ∧
            cellAt b2 row (i + j) = some cell2 ∧
            cell2.letter = some l.toUpper ∧ cell2.x = cell.x ∧
            cell2.y = cell.y ∧ cell2.hints = cell.hints) ∧
        (∀ r2 c2, r2 ≠ row ∨ c2 < i ∨ i + letters.length ≤ c2 →
          cellAt b2 r2 c2 = cellAt board r2 c2)))
  | [] => by
    intro i board hin
    refine ⟨by simp [insertLoopH], Or.inl ⟨board, by simp [insertLoopH]⟩, ?_⟩
    intro b2 hb2
    simp only [insertLoopH] at hb2
    injection hb2 with hb2
    subst hb2
    refine ⟨?_, fun r2 c2 h => rfl⟩
    intro j l h
    simp [List.get?] at h
  | l :: rest => by
    intro i board hin
    obtain ⟨cell0, hcell0⟩ := Option.isSome_iff_exists.mp
      (by simpa using hin 0 (by simp))
    rcases hlet : cell0.letter with _ | e
    · -- empty cell: write it and recurse on the modified board
      have hstep : insertLoopH row i (l :: rest) board =
          insertLoopH row (i + 1) rest (setCellLetter board row i l.toUpper) := by
        simp [insertLoopH, hcell0, hlet]
      have hpres : ∀ c2, c2 ≠ i →
          cellAt (setCellLetter board row i l.toUpper) row c2 =
            cellAt board row c2 := by
        intro c2 hc2
        exact cellAt_set_ne board row i l.toUpper row c2
          (Or.inr fun hh => hc2 hh.symm)
      have hin1 : ∀ j, j < rest.length →
          (cellAt (setCellLetter board row i l.toUpper) row (i + 1 + j)).isSome
            = true := by
        intro j hj
        rw [hpres _ (by omega)]
        have h9 := hin (j + 1) (by simpa using Nat.succ_lt_succ hj)
        rw [show i + (j + 1) = i + 1 + j by omega] at h9
        exact h9
      obtain ⟨ih_err, ih_tot, ih_post⟩ :=
        insertLoopH_spec row rest (i + 1) (setCellLetter board row i l.toUpper) hin1
      refine ⟨?_, ?_, ?_⟩
      · rw [hstep, ih_err]
        constructor
        · rintro ⟨j, l2, cell, e2, hg, hc, hl2, hne2⟩
          refine ⟨j + 1, l2, cell, e2, ?_, ?_, hl2, hne2⟩
          · rw [List.get?_cons_succ]
            exact hg
          · rw [show i + (j + 1) = i + 1 + j by omega, ← hpres _ (by omega)]
            exact hc
        · rintro ⟨j, l2, cell, e2, hg, hc, hl2, hne2⟩
          match j, hg, hc with
          | 0, hg, hc =>
            exfalso
            simp only [List.get?] at hg
            injection hg with hg
            subst hg
            rw [show i + 0 = i by omega, hcell0] at hc
            injection hc with hc
            subst hc
            rw [hlet] at hl2
            exact Option.noConfusion hl2
          | (j' + 1), hg, hc =>
            rw [List.get?_cons_succ] at hg
            refine ⟨j', l2, cell, e2, hg, ?_, hl2, hne2⟩
            rw [hpres _ (by omega), show i + 1 + j' = i + (j' + 1) by omega]
            exact hc
      · rw [hstep]
        exact ih_tot
      · intro b2 hb2
        rw [hstep] at hb2
        obtain ⟨ih_read, ih_frame⟩ := ih_post b2 hb2
        constructor
        · intro j l2 hg
          match j, hg with
          | 0, hg =>
            simp only [List.get?] at hg
            injection hg with hg
            subst hg
            refine ⟨cell0, { cell0 with letter := some l.toUpper }, ?_, ?_,
              rfl, rfl, rfl, rfl⟩
            · rw [show i + 0 = i by omega]
              exact hcell0
            · rw [show i + 0 = i by omega,
                ih_frame row i (Or.inr (Or.inl (by omega))),
                cellAt_set_eq, hcell0]
              rfl
          | (j' + 1), hg =>
            rw [List.get?_cons_succ] at hg
            obtain ⟨cell, cell2, hc, hc2, hfields⟩ := ih_read j' l2 hg
            refine ⟨cell, cell2, ?_, ?_, hfields⟩
            · rw [show i + (j' + 1) = i + 1 + j' by omega, ← hpres _ (by omega)]
              exact hc
            · rw [show i + (j' + 1) = i + 1 + j' by omega]
              exact hc2
        · intro r2 c2 hreg
          simp only [List.length_cons] at hreg
          have hreg1 : r2 ≠ row ∨ c2 < i + 1 ∨ i + 1 + rest.length ≤ c2 := by
            rcases hreg with h | h | h
            · exact Or.inl h
            · exact Or.inr (Or.inl (by omega))
            · exact Or.inr (Or.inr (by omega))
          rw [ih_frame r2 c2 hreg1]
          apply cellAt_set_ne
          rcases hreg with h | h | h
          · exact Or.inl fun hh => h hh.symm
          · exact Or.inr (by omega)
          · exact Or.inr (by omega)
    · -- confirmed letter present
      by_cases hne : e ≠ l.toUpper
      · have hstep : insertLoopH row i (l :: rest) board =
            .error .conflictLetter := by
          simp [insertLoopH, hcell0, hlet, hne]
        refine ⟨?_, Or.inr hstep, ?_⟩
        · rw [hstep]
          simp only [true_iff]
          exact ⟨0, l, cell0, e, rfl,
            by rw [show i + 0 = i by omega]; exact hcell0, hlet, hne⟩
        · intro b2 hb2
          rw [hstep] at hb2
          exact Except.noConfusion hb2
      · push_neg at hne
        subst hne
        have hstep : insertLoopH row i (l :: rest) board =
            insertLoopH row (i + 1) rest board := by
          simp [insertLoopH, hcell0, hlet]
        have hin1 : ∀ j, j < rest.length →
            (cellAt board row (i + 1 + j)).isSome = true := by
          intro j hj
          have h9 := hin (j + 1) (by simpa using Nat.succ_lt_succ hj)
          rw [show i + (j + 1) = i + 1 + j by omega] at h9
          exact h9
        obtain ⟨ih_err, ih_tot, ih_post⟩ :=
          insertLoopH_spec row rest (i + 1) board hin1
        refine ⟨?_, ?_, ?_⟩
        · rw [hstep, ih_err]
          constructor
          · rintro ⟨j, l2, cell, e2, hg, hc, hl2, hne2⟩
            refine ⟨j + 1, l2, cell, e2, ?_, ?_, hl2, hne2⟩
            · rw [List.get?_cons_succ]
              exact hg
            · rw [show i + (j + 1) = i + 1 + j by omega]
              exact hc
          · rintro ⟨j, l2, cell, e2, hg, hc, hl2, hne2⟩
            match j, hg, hc with
            | 0, hg, hc =>
              exfalso
              simp only [List.get?] at hg
              injection hg with hg
              subst hg
              rw [show i + 0 = i by omega, hcell0] at hc
              injection hc with hc
              subst hc
              rw [hlet] at hl2
              injection hl2 with hl2
              exact hne2 hl2.symm
            | (j' + 1), hg, hc =>
              rw [List.get?_cons_succ] at hg
              refine ⟨j', l2, cell, e2, hg, ?_, hl2, hne2⟩
              rw [show i + 1 + j' = i + (j' + 1) by omega]
              exact hc
        · rw [hstep]
          exact ih_tot
        · intro b2 hb2
          rw [hstep] at hb2
          obtain ⟨ih_read, ih_frame⟩ := ih_post b2 hb2
          constructor
          · intro j l2 hg
            match j, hg with
            | 0, hg =>
              simp only [List.get?] at hg
              injection hg with hg
              subst hg
              refine ⟨cell0, cell0, ?_, ?_, ?_, rfl, rfl, rfl⟩
              · rw [show i + 0 = i by omega]
                exact hcell0
              · rw [show i + 0 = i by omega,
                  ih_frame row i (Or.inr (Or.inl (by omega)))]
                exact hcell0
              · exact hlet
            | (j' + 1), hg =>
              rw [List.get?_cons_succ] at hg
              obtain ⟨cell, cell2, hc, hc2, hfields⟩ := ih_read j' l2 hg
              refine ⟨cell, cell2, ?_, ?_, hfields⟩
              · rw [show i + (j' + 1) = i + 1 + j' by omega]
                exact hc
              · rw [show i + (j' + 1) = i + 1 + j' by omega]
                exact hc2
          · intro r2 c2 hreg
            simp only [List.length_cons] at hreg
            refine ih_frame r2 c2 ?_
            rcases hreg with h | h | h
            · exact Or.inl h
            · exact Or.inr (Or.inl (by omega))
            · exact Or.inr (Or.inr (by omega))

/-- Mirror of `insertLoopH_spec` for the vertical loop, which writes the
cell in both non-conflict branches. -/
theorem insertLoopV_spec (col : Nat) :
    ∀ (letters : Word) (i : Nat) (board : Board),
      (∀ j, j < letters.length → (cellAt board (i + j) col).isSome = true) →
      ((insertLoopV col i letters board = .error .conflictLetter ↔
        ∃ j l cell e, letters.get? j = some l ∧
          cellAt board (i + j) col = some cell ∧ cell.letter = some e ∧
          e ≠ l.toUpper) ∧
      ((∃ b2, insertLoopV col i letters board = .ok b2) ∨
        insertLoopV col i letters board = .error .conflictLetter) ∧
      (∀ b2, insertLoopV col i letters board = .ok b2 →
        (∀ j l, letters.get? j = some l →
          ∃ cell cell2, cellAt board (i + j) col = some cell ∧
            cellAt b2 (i + j) col = some cell2 ∧
            cell2.letter = some l.toUpper ∧ cell2.x = cell.x ∧
            cell2.y = cell.y ∧ cell2.hints = cell.hints) ∧
        (∀ r2 c2, c2 ≠ col ∨ r2 < i ∨ i + letters.length ≤ r2 →
          cellAt b2 r2 c2 = cellAt board r2 c2)))
  | [] => by
    intro i board hin
    refine ⟨by simp [insertLoopV], Or.inl ⟨board, by simp [insertLoopV]⟩, ?_⟩
    intro b2 hb2
    simp only [insertLoopV] at hb2
    injection hb2 with hb2
    subst hb2
    refine ⟨?_, fun r2 c2 h => rfl⟩
    intro j l h
    simp [List.get?] at h
  | l :: rest => by
    intro i board hin
    obtain ⟨cell0, hcell0⟩ := Option.isSome_iff_exists.mp
      (by simpa using hin 0 (by simp))
    rcases hlet : cell0.letter with _ | e
    case some =>
      by_cases hne : e ≠ l.toUpper
      · have hstep : insertLoopV col i (l :: rest) board =
            .error .conflictLetter := by
          simp [insertLoopV, hcell0, hlet, hne]
        refine ⟨?_, Or.inr hstep, ?_⟩
        · rw [hstep]
          simp only [true_iff]
          exact ⟨0, l, cell0, e, rfl,
            by rw [show i + 0 = i by omega]; exact hcell0, hlet, hne⟩
        · intro b2 hb2
          rw [hstep] at hb2
          exact Except.noConfusion hb2
      · push_neg at hne
        subst hne
        have hstep : insertLoopV col i (l :: rest) board =
            insertLoopV col (i + 1) rest (setCellLetter board i col l.toUpper) := by
          simp [insertLoopV, hcell0, hlet]
        have hpres : ∀ r2, r2 ≠ i →
            cellAt (setCellLetter board i col l.toUpper) r2 col =
              cellAt board r2 col := by
          intro r2 hr2
          exact cellAt_set_ne board i col l.toUpper r2 col
            (Or.inl fun hh => hr2 hh.symm)
        have hin1 : ∀ j, j < rest.length →
            (cellAt (setCellLetter board i col l.toUpper) (i + 1 + j) col).isSome
              = true := by
          intro j hj
          rw [hpres _ (by omega)]
          have h9 := hin (j + 1) (by simpa using Nat.succ_lt_succ hj)
          rw [show i + (j + 1) = i + 1 + j by omega] at h9
          exact h9
        obtain ⟨ih_err, ih_tot, ih_post⟩ :=
          insertLoopV_spec col rest (i + 1) (setCellLetter board i col l.toUpper) hin1
        refine ⟨?_, ?_, ?_⟩
        · rw [hstep, ih_err]
          constructor
          · rintro ⟨j, l2, cell, e2, hg, hc, hl2, hne2⟩
            refine ⟨j + 1, l2, cell, e2, ?_, ?_, hl2, hne2⟩
            · rw [List.get?_cons_succ]
              exact hg
            · rw [show i + (j + 1) = i + 1 + j by omega, ← hpres _ (by omega)]
              exact hc
          · rintro ⟨j, l2, cell, e2, hg, hc, hl2, hne2⟩
            match j, hg, hc with
            | 0, hg, hc =>
              exfalso
              simp only [List.get?] at hg
              injection hg with hg
              subst hg
              rw [show i + 0 = i by omega, hcell0] at hc
              injection hc with hc
              subst hc
              rw [hlet] at hl2
              injection hl2 with hl2
              exact hne2 hl2.symm
            | (j' + 1), hg, hc =>
              rw [List.get?_cons_succ] at hg
              refine ⟨j', l2, cell, e2, hg, ?_, hl2, hne2⟩
              rw [hpres _ (by omega), show i + 1 + j' = i + (j' + 1) by omega]
              exact hc
        · rw [hstep]
          exact ih_tot
        · intro b2 hb2
          rw [hstep] at hb2
          obtain ⟨ih_read, ih_frame⟩ := ih_post b2 hb2
          constructor
          · intro j l2 hg
            match j, hg with
            | 0, hg =>
              simp only [List.get?] at hg
              injection hg with hg
              subst hg
              refine ⟨cell0, { cell0 with letter := some l.toUpper }, ?_, ?_,
                rfl, rfl, rfl, rfl⟩
              · rw [show i + 0 = i by omega]
                exact hcell0
              · rw [show i + 0 = i by omega,
                  ih_frame i col (Or.inr (Or.inl (by omega))),
                  cellAt_set_eq, hcell0]
                rfl
            | (j' + 1), hg =>
              rw [List.get?_cons_succ] at hg
              obtain ⟨cell, cell2, hc, hc2, hfields⟩ := ih_read j' l2 hg
              refine ⟨cell, cell2, ?_, ?_, hfields⟩
              · rw [show i + (j' + 1) = i + 1 + j' by omega, ← hpres _ (by omega)]
                exact hc
              · rw [show i + (j' + 1) = i + 1 + j' by omega]
                exact hc2
          · intro r2 c2 hreg
            simp only [List.length_cons] at hreg
            have hreg1 : c2 ≠ col ∨ r2 < i + 1 ∨ i + 1 + rest.length ≤ r2 := by
              rcases hreg with h | h | h
              · exact Or.inl h
              · exact Or.inr (Or.inl (by omega))
              · exact Or.inr (Or.inr (by omega))
            rw [ih_frame r2 c2 hreg1]
            apply cellAt_set_ne
            rcases hreg with h | h | h
            · exact Or.inr fun hh => h hh.symm
            · exact Or.inl (by omega)
            · exact Or.inl (by omega)
    case none =>
      have hstep : insertLoopV col i (l :: rest) board =
          insertLoopV col (i + 1) rest (setCellLetter board i col l.toUpper) := by
        simp [insertLoopV, hcell0, hlet]
      have hpres : ∀ r2, r2 ≠ i →
          cellAt (setCellLetter board i col l.toUpper) r2 col =
            cellAt board r2 col := by
        intro r2 hr2
        exact cellAt_set_ne board i col l.toUpper r2 col
          (Or.inl fun hh => hr2 hh.symm)
      have hin1 : ∀ j, j < rest.length →
          (cellAt (setCellLetter board i col l.toUpper) (i + 1 + j) col).isSome
            = true := by
        intro j hj
        rw [hpres _ (by omega)]
        have h9 := hin (j + 1) (by simpa using Nat.succ_lt_succ hj)
        rw [show i + (j + 1) = i + 1 + j by omega] at h9
        exact h9
      obtain ⟨ih_err, ih_tot, ih_post⟩ :=
        insertLoopV_spec col rest (i + 1) (setCellLetter board i col l.toUpper) hin1
      refine ⟨?_, ?_, ?_⟩
      · rw [hstep, ih_err]
        constructor
        · rintro ⟨j, l2, cell, e2, hg, hc, hl2, hne2⟩
          refine ⟨j + 1, l2, cell, e2, ?_, ?_, hl2, hne2⟩
          · rw [List.get?_cons_succ]
            exact hg
          · rw [show i + (j + 1) = i + 1 + j by omega, ← hpres _ (by omega)]
            exact hc
        · rintro ⟨j, l2, cell, e2, hg, hc, hl2, hne2⟩
          match j, hg, hc with
          | 0, hg, hc =>
            exfalso
            simp only [List.get?] at hg
            injection hg with hg
            subst hg
            rw [show i + 0 = i by omega, hcell0] at hc
            injection hc with hc
            subst hc
            rw [hlet] at hl2
            exact Option.noConfusion hl2
          | (j' + 1), hg, hc =>
            rw [List.get?_cons_succ] at hg
            refine ⟨j', l2, cell, e2, hg, ?_, hl2, hne2⟩
            rw [hpres _ (by omega), show i + 1 + j' = i + (j' + 1) by omega]
            exact hc
      · rw [hstep]
        exact ih_tot
      · intro b2 hb2
        rw [hstep] at hb2
        obtain ⟨ih_read, ih_frame⟩ := ih_post b2 hb2
        constructor
        · intro j l2 hg
          match j, hg with
          | 0, hg =>
            simp only [List.get?] at hg
            injection hg with hg
            subst hg
            refine ⟨cell0, { cell0 with letter := some l.toUpper }, ?_, ?_,
              rfl, rfl, rfl, rfl⟩
            · rw [show i + 0 = i by omega]
              exact hcell0
            · rw [show i + 0 = i by omega,
                ih_frame i col (Or.inr (Or.inl (by omega))),
                cellAt_set_eq, hcell0]
              rfl
          | (j' + 1), hg =>
            rw [List.get?_cons_succ] at hg
            obtain ⟨cell, cell2, hc, hc2, hfields⟩ := ih_read j' l2 hg
            refine ⟨cell, cell2, ?_, ?_, hfields⟩
            · rw [show i + (j' + 1) = i + 1 + j' by omega, ← hpres _ (by omega)]
              exact hc
            · rw [show i + (j' + 1) = i + 1 + j' by omega]
              exact hc2
        · intro r2 c2 hreg
          simp only [List.length_cons] at hreg
          have hreg1 : c2 ≠ col ∨ r2 < i + 1 ∨ i + 1 + rest.length ≤ r2 := by
            rcases hreg with h | h | h
            · exact Or.inl h
            · exact Or.inr (Or.inl (by omega))
            · exact Or.inr (Or.inr (by omega))
          rw [ih_frame r2 c2 hreg1]
          apply cellAt_set_ne
          rcases hreg with h | h | h
          · exact Or.inr fun hh => h hh.symm
          · exact Or.inl (by omega)
          · exact Or.inl (by omega)

theorem wellFormed_cellAt {b : Board} (h : wellFormedBoard b = true)
    {r c : Nat} (hr : r < 5) (hc : c < 5) :
    ∃ cell, cellAt b r c = some cell := by
  have hylen : r < b.length := by rw [wellFormed_length h]; exact hr
  have hrow : b.get? r = some b[r] := by
    rw [List.get?_eq_getElem?]
    exact List.getElem?_eq_getElem hylen
  have hxlen : c < b[r].length := by
    rw [(wellFormed_row h hrow).1]
    exact hc
  refine ⟨(b[r])[c], ?_⟩
  unfold cellAt
  rw [hrow]
  simp only [Option.some_bind]
  rw [List.get?_eq_getElem?]
  exact List.getElem?_eq_getElem hxlen

/-- The cell of the target line at slot `j`: `board[idx][j]` for a
horizontal guess, `board[j][idx]` for a vertical one. -/
def lineCellAt (board : Board) (direction : Direction) (idx j : Nat) :
    Option Cell :=
  match direction with
  | .horizontal => cellAt board idx j
  | .vertical => cellAt board j idx

/-- The letters read back along the target line. -/
def readLine (board : Board) (direction : Direction) (idx : Nat) :
    List (Option Char) :=
  (List.range 5).map fun j =>
    (lineCellAt board direction idx j).bind fun c => c.letter

/-- Whether `(r, c)` lies on the target line. -/
def onLine (direction : Direction) (idx r c : Nat) : Bool :=
  match direction with
  | .horizontal => r == idx
  | .vertical => c == idx

/-- C7: `insertWordInBoard` raises the conflict error iff some cell of
the target line holds a confirmed letter differing from the uppercased
incoming letter at that slot; without such a conflict it succeeds, and
the returned board's target line reads back as the uppercased word.
(The embedding is pure, so the input board is unchanged by
construction.) -/
theorem insertWordInBoard_conflict_correct (bs : BoardState) (word : Word)
    (direction : Direction) (hwf : wellFormedBoard bs.board = true)
    (hidx : bs.nextGuessIndex < 5) (hlen : word.length = 5) :
    (insertWordInBoard bs word direction = .error .conflictLetter ↔
      ∃ j l cell e, word.get? j = some l ∧
        lineCellAt bs.board direction bs.nextGuessIndex j = some cell ∧
        cell.letter = some e ∧ e ≠ l.toUpper) ∧
    ((¬ ∃ j l cell e, word.get? j = some l ∧
        lineCellAt bs.board direction bs.nextGuessIndex j = some cell ∧
        cell.letter = some e ∧ e ≠ l.toUpper) →
      ∃ b2, insertWordInBoard bs word direction = .ok b2) ∧
    (∀ b2, insertWordInBoard bs word direction = .ok b2 →
      readLine b2 direction bs.nextGuessIndex =
        word.map fun l => some l.toUpper) := by
  rcases direction with _ | _
  case horizontal =>
    have hin : ∀ j, j < word.length →
        (cellAt bs.board bs.nextGuessIndex (0 + j)).isSome = true := by
      intro j hj
      obtain ⟨cell, hc⟩ := wellFormed_cellAt hwf (c := 0 + j) hidx (by omega)
      rw [hc]
      rfl
    obtain ⟨herr, htot, hpost⟩ :=
      insertLoopH_spec bs.nextGuessIndex word 0 bs.board hin
    simp only [Nat.zero_add] at herr htot hpost
    have hdef : insertWordInBoard bs word .horizontal =
        insertLoopH bs.nextGuessIndex 0 word bs.board := rfl
    refine ⟨?_, ?_, ?_⟩
    · rw [hdef, herr]
      simp only [lineCellAt]
    · intro hnc
      rw [hdef]
      rcases htot with h | h
      · exact h
      · exfalso
        apply hnc
        simpa [lineCellAt] using herr.mp h
    · intro b2 hb2
      rw [hdef] at hb2
      obtain ⟨hread, hframe⟩ := hpost b2 hb2
      apply List.ext_getElem?
      intro n
      by_cases hn : n < 5
      · have hnlen : n < word.length := by omega
        have hw : word.get? n = some word[n] := by
          rw [List.get?_eq_getElem?]
          exact List.getElem?_eq_getElem hnlen
        obtain ⟨cell, cell2, hc, hc2, hl2, _⟩ := hread n word[n] hw
        unfold readLine
        simp [List.getElem?_map, List.getElem?_range hn,
          List.getElem?_eq_getElem hnlen, lineCellAt, hc2, hl2]
      · unfold readLine
        rw [List.getElem?_map, List.getElem?_map,
          List.getElem?_eq_none (by rw [List.length_range]; omega),
          List.getElem?_eq_none (by rw [hlen]; omega)]
        rfl
  case vertical =>
    have hin : ∀ j, j < word.length →
        (cellAt bs.board (0 + j) bs.nextGuessIndex).isSome = true := by
      intro j hj
      obtain ⟨cell, hc⟩ := wellFormed_cellAt hwf (r := 0 + j) (by omega) hidx
      rw [hc]
      rfl
    obtain ⟨herr, htot, hpost⟩ :=
      insertLoopV_spec bs.nextGuessIndex word 0 bs.board hin
    simp only [Nat.zero_add] at herr htot hpost
    have hdef : insertWordInBoard bs word .vertical =
        insertLoopV bs.nextGuessIndex 0 word bs.board := rfl
    refine ⟨?_, ?_, ?_⟩
    · rw [hdef, herr]
      simp only [lineCellAt]
    · intro hnc
      rw [hdef]
      rcases htot with h | h
      · exact h
      · exfalso
        apply hnc
        simpa [lineCellAt] using herr.mp h
    · intro b2 hb2
      rw [hdef] at hb2
      obtain ⟨hread, hframe⟩ := hpost b2 hb2
      apply List.ext_getElem?
      intro n
      by_cases hn : n < 5
      · have hnlen : n < word.length := by omega
        have hw : word.get? n = some word[n] := by
          rw [List.get?_eq_getElem?]
          exact List.getElem?_eq_getElem hnlen
        obtain ⟨cell, cell2, hc, hc2, hl2, _⟩ := hread n word[n] hw
        unfold readLine
        simp [List.getElem?_map, List.getElem?_range hn,
          List.getElem?_eq_getElem hnlen, lineCellAt, hc2, hl2]
      · unfold readLine
        rw [List.getElem?_map, List.getElem?_map,
          List.getElem?_eq_none (by rw [List.length_range]; omega),
          List.getElem?_eq_none (by rw [hlen]; omega)]
        rfl

/-- C9: a successful insertion changes at most the letters of cells on
the target line; every cell keeps its coordinates and hint list, every
off-line cell keeps its letter, and positions without a cell stay
without one. (The embedding is pure, so the caller's board is unchanged
by construction.) -/
theorem insertWordInBoard_frame (bs : BoardState) (word : Word)
    (direction : Direction) (hwf : wellFormedBoard bs.board = true)
    (hidx : bs.nextGuessIndex < 5) (hlen : word.length = 5)
    (b2 : Board) (hok : insertWordInBoard bs word direction = .ok b2) :
    (∀ r c cell, cellAt bs.board r c = some cell →
      ∃ cell2, cellAt b2 r c = some cell2 ∧ cell2.x = cell.x ∧
        cell2.y = cell.y ∧ cell2.hints = cell.hints ∧
        (onLine direction bs.nextGuessIndex r c = false →
          cell2.letter = cell.letter)) ∧
    (∀ r c, cellAt bs.board r c = none → cellAt b2 r c = none) := by
  rcases direction with _ | _
  case horizontal =>
    have hin : ∀ j, j < word.length →
        (cellAt bs.board bs.nextGuessIndex (0 + j)).isSome = true := by
      intro j hj
      obtain ⟨cell, hc⟩ := wellFormed_cellAt hwf (c := 0 + j) hidx (by omega)
      rw [hc]
      rfl
    obtain ⟨herr, htot, hpost⟩ :=
      insertLoopH_spec bs.nextGuessIndex word 0 bs.board hin
    simp only [Nat.zero_add] at herr htot hpost
    obtain ⟨hread, hframe⟩ := hpost b2 hok
    constructor
    · intro r c cell hc
      by_cases hr : r = bs.nextGuessIndex
      · subst hr
        by_cases hcc : c < 5
        · have hcw : c < word.length := by omega
          have hw : word.get? c = some word[c] := by
            rw [List.get?_eq_getElem?]
            exact List.getElem?_eq_getElem hcw
          obtain ⟨cellx, cell2, hcx, hc2, hl2, hx, hy, hh⟩ := hread c word[c] hw
          rw [hc] at hcx
          injection hcx with hcx
          subst hcx
          refine ⟨cell2, hc2, hx, hy, hh, ?_⟩
          intro hfalse
          simp [onLine] at hfalse
        · have hc2 := hframe bs.nextGuessIndex c (Or.inr (Or.inr (by omega)))
          rw [hc] at hc2
          exact ⟨cell, hc2, rfl, rfl, rfl, fun _ => rfl⟩
      · have hc2 := hframe r c (Or.inl hr)
        rw [hc] at hc2
        exact ⟨cell, hc2, rfl, rfl, rfl, fun _ => rfl⟩
    · intro r c hc
      by_cases hr : r = bs.nextGuessIndex
      · subst hr
        by_cases hcc : c < 5
        · exfalso
          obtain ⟨cell, hcell⟩ := wellFormed_cellAt hwf hidx hcc
          rw [hc] at hcell
          exact Option.noConfusion hcell
        · rw [hframe bs.nextGuessIndex c (Or.inr (Or.inr (by omega)))]
          exact hc
      · rw [hframe r c (Or.inl hr)]
        exact hc
  case vertical =>
    have hin : ∀ j, j < word.length →
        (cellAt bs.board (0 + j) bs.nextGuessIndex).isSome = true := by
      intro j hj
      obtain ⟨cell, hc⟩ := wellFormed_cellAt hwf (r := 0 + j) (by omega) hidx
      rw [hc]
      rfl
    obtain ⟨herr, htot, hpost⟩ :=
      insertLoopV_spec bs.nextGuessIndex word 0 bs.board hin
    simp only [Nat.zero_add] at herr htot hpost
    obtain ⟨hread, hframe⟩ := hpost b2 hok
    constructor
    · intro r c cell hc
      by_cases hcl : c = bs.nextGuessIndex
      · subst hcl
        by_cases hrr : r < 5
        · have hrw : r < word.length := by omega
          have hw : word.get? r = some word[r] := by
            rw [List.get?_eq_getElem?]
            exact List.getElem?_eq_getElem hrw
          obtain ⟨cellx, cell2, hcx, hc2, hl2, hx, hy, hh⟩ := hread r word[r] hw
          rw [hc] at hcx
          injection hcx with hcx
          subst hcx
          refine ⟨cell2, hc2, hx, hy, hh, ?_⟩
          intro hfalse
          simp [onLine] at hfalse
        · have hc2 := hframe r bs.nextGuessIndex (Or.inr (Or.inr (by omega)))
          rw [hc] at hc2
          exact ⟨cell, hc2, rfl, rfl, rfl, fun _ => rfl⟩
      · have hc2 := hframe r c (Or.inl hcl)
        rw [hc] at hc2
        exact ⟨cell, hc2, rfl, rfl, rfl, fun _ => rfl⟩
    · intro r c hc
      by_cases hcl : c = bs.nextGuessIndex
      · subst hcl
        by_cases hrr : r < 5
        · exfalso
          obtain ⟨cell, hcell⟩ := wellFormed_cellAt hwf hrr hidx
          rw [hc] at hcell
          exact Option.noConfusion hcell
        · rw [hframe r bs.nextGuessIndex (Or.inr (Or.inr (by omega)))]
          exact hc
      · rw [hframe r c (Or.inl hcl)]
        exact hc

def mkCell (x y : Nat) : Cell := ⟨x, y, none, []⟩

/-- A well-formed, fully empty 5×5 board. -/
def emptyBoard : Board :=
  (List.range 5).map fun y => (List.range 5).map fun x => mkCell x y

def wordA : Word := ['A', 'A', 'A', 'A', 'A']

def wordB : Word := ['B', 'B', 'B', 'B', 'B']

def emptyEnv : WordLists := ⟨[], [], [], []⟩

def tieState : BoardState := ⟨6, 0, Language.en, emptyBoard⟩

/-- The board produced by inserting `wordA` horizontally at row 0 of the
empty board. -/
def insertedA : Board :=
  (insertWordInBoard tieState wordA .horizontal).toOption.getD []

theorem insertWordInBoard_conflict_correct_witness :
    readLine insertedA .horizontal 0 = wordA.map fun l => some l.toUpper :=
  (insertWordInBoard_conflict_correct tieState wordA .horizontal
    (by decide) (by decide) (by decide)).2.2 insertedA (by rfl)

theorem insertWordInBoard_frame_witness :
    cellAt insertedA 7 0 = none :=
  (insertWordInBoard_frame tieState wordA .horizontal
    (by decide) (by decide) (by decide) insertedA (by rfl)).2 7 0 (by rfl)

theorem dedupFirstAux_mem {α : Type} [DecidableEq α] :
    ∀ (l seen : List α) (a : α),
      a ∈ dedupFirstAux seen l ↔ a ∈ l ∧ a ∉ seen
  | [], seen, a => by simp [dedupFirstAux]
  | b :: rest, seen, a => by
    simp only [dedupFirstAux]
    by_cases hb : b ∈ seen
    · rw [if_pos hb, dedupFirstAux_mem rest seen a]
      constructor
      · rintro ⟨h1, h2⟩
        exact ⟨List.mem_cons_of_mem _ h1, h2⟩
      · rintro ⟨h1, h2⟩
        rcases List.mem_cons.mp h1 with h | h
        · subst h
          exact absurd hb h2
        · exact ⟨h, h2⟩
    · rw [if_neg hb]
      rw [List.mem_cons, dedupFirstAux_mem rest (b :: seen) a]
      constructor
      · rintro (h | ⟨h1, h2⟩)
        · subst h
          exact ⟨List.mem_cons_self _ _, hb⟩
        · refine ⟨List.mem_cons_of_mem _ h1, fun hs => h2 (List.mem_cons_of_mem _ hs)⟩
      · rintro ⟨h1, h2⟩
        rcases List.mem_cons.mp h1 with h | h
        · exact Or.inl h
        · by_cases hab : a = b
          · exact Or.inl hab
          · exact Or.inr ⟨h, fun hs => by
              rcases List.mem_cons.mp hs with h3 | h3
              exacts [hab h3, h2 h3]⟩

theorem dedupFirstAux_nodup {α : Type} [DecidableEq α] :
    ∀ (l seen : List α), (dedupFirstAux seen l).Nodup
  | [], seen => by simp [dedupFirstAux]
  | b :: rest, seen => by
    simp only [dedupFirstAux]
    by_cases hb : b ∈ seen
    · rw [if_pos hb]
      exact dedupFirstAux_nodup rest seen
    · rw [if_neg hb, List.nodup_cons]
      constructor
      · intro hmem
        have := (dedupFirstAux_mem rest (b :: seen) b).mp hmem
        exact this.2 (List.mem_cons_self _ _)
      · exact dedupFirstAux_nodup rest (b :: seen)

theorem dedupFirst_nodup {α : Type} [DecidableEq α] (l : List α) :
    (dedupFirst l).Nodup :=
  dedupFirstAux_nodup l []

theorem dedupFirstAux_all_seen {α : Type} [DecidableEq α] :
    ∀ (l seen : List α), (∀ a ∈ l, a ∈ seen) → dedupFirstAux seen l = []
  | [], _, _ => by simp [dedupFirstAux]
  | b :: rest, seen, hall => by
    simp only [dedupFirstAux]
    rw [if_pos (hall b (List.mem_cons_self _ _))]
    exact dedupFirstAux_all_seen rest seen
      fun a ha => hall a (List.mem_cons_of_mem _ ha)

/-- Deduplicating a nonempty constant list gives the singleton. -/
theorem dedupFirst_const {α : Type} [DecidableEq α] (v : α) :
    ∀ (l : List α), l ≠ [] → (∀ a ∈ l, a = v) → dedupFirst l = [v]
  | [], h, _ => absurd rfl h
  | b :: rest, _, hall => by
    have hb : b = v := hall b (List.mem_cons_self _ _)
    subst hb
    unfold dedupFirst
    simp only [dedupFirstAux, List.mem_nil_iff, if_false]
    rw [dedupFirstAux_all_seen rest [b] fun a ha => by
      have := hall a (List.mem_cons_of_mem _ ha)
      subst this
      exact List.mem_cons_self _ _]

/-- Lower bound and strict ordering of the indexes produced by the
`matchingLetters` construction. -/
theorem matchingLetters_enumFrom (cells : List Cell) :
    ∀ n : Nat,
      (∀ p ∈ (List.enumFrom n cells).filterMap
          (fun p => p.2.letter.map fun l => (⟨p.1, l⟩ : LetterIndex)),
        n ≤ p.index) ∧
      ((List.enumFrom n cells).filterMap
          (fun p => p.2.letter.map fun l => (⟨p.1, l⟩ : LetterIndex))).Pairwise
        (fun a b => a.index < b.index) := by
  induction cells with
  | nil => intro n; simp
  | cons c rest ih =>
    intro n
    rw [List.enumFrom_cons]
    rcases hl : c.letter with _ | l
    · have hfc : (fun p => Option.map
          (fun l => ({ index := p.1, letter := l } : LetterIndex)) p.2.letter)
            ((n, c) : Nat × Cell) = none := by simp [hl]
      simp only [List.filterMap_cons, hfc]
      obtain ⟨ih1, ih2⟩ := ih (n + 1)
      exact ⟨fun p hp => by have := ih1 p hp; omega, ih2⟩
    · have hfc : (fun p => Option.map
          (fun l => ({ index := p.1, letter := l } : LetterIndex)) p.2.letter)
            ((n, c) : Nat × Cell) = some ⟨n, l⟩ := by simp [hl]
      simp only [List.filterMap_cons, hfc]
      obtain ⟨ih1, ih2⟩ := ih (n + 1)
      constructor
      · intro p hp
        rcases List.mem_cons.mp hp with h | h
        · subst h
          exact Nat.le_refl n
        · have := ih1 p h
          omega
      · rw [List.pairwise_cons]
        refine ⟨fun p hp => ?_, ih2⟩
        have := ih1 p hp
        show n < p.index
        omega

/-- C8 amended: the required-letter set, the forbidden-letter set and the
required-at-position set of every produced FilterSpecification contain no
duplicates (the forbidden-at-position set can repeat, see the
counterexample). -/
theorem createWordFilter_dedup (cells : List Cell) (direction : Direction)
    (boardState : BoardState) :
    (createWordFilter cells direction boardState).includes.Nodup ∧
    (createWordFilter cells direction boardState).excludes.Nodup ∧
    (createWordFilter cells direction boardState).matchingLetters.Nodup := by
  refine ⟨dedupFirst_nodup _, dedupFirst_nodup _, ?_⟩
  have h := (matchingLetters_enumFrom cells 0).2
  have heq : (createWordFilter cells direction boardState).matchingLetters =
      (List.enumFrom 0 cells).filterMap
        (fun p => p.2.letter.map fun l => (⟨p.1, l⟩ : LetterIndex)) := rfl
  rw [heq]
  exact h.imp fun {a b} hab heq2 => by
    rw [heq2] at hab
    exact Nat.lt_irrefl _ hab

def dupHintCell : Cell :=
  ⟨0, 0, none, [⟨'A', .horizontalSimple⟩, ⟨'A', .horizontalSimple⟩]⟩

/-- C8 counterexample: a cell carrying the same hint twice (the same
letter fed back by two guesses) makes `excludingPositions` contain a
duplicate pair, so not all four sets are deduplicated. -/
theorem createWordFilter_dedup_counterexample :
    ¬ ((createWordFilter [dupHintCell] .horizontal tieState).includes.Nodup ∧
       (createWordFilter [dupHintCell] .horizontal tieState).excludes.Nodup ∧
       (createWordFilter [dupHintCell]
          .horizontal tieState).excludingPositions.Nodup ∧
       (createWordFilter [dupHintCell]
          .horizontal tieState).matchingLetters.Nodup) := by
  intro h
  exact absurd h.2.2.1 (by decide)

theorem insertBefore_mem {α : Type} (before : α → α → Bool) (x : α) :
    ∀ (l : List α) (a : α), a ∈ insertBefore before x l ↔ a = x ∨ a ∈ l
  | [], a => by simp [insertBefore]
  | y :: ys, a => by
    simp only [insertBefore]
    by_cases hb : before x y = true
    · rw [if_pos hb, List.mem_cons, List.mem_cons]
    · rw [if_neg hb, List.mem_cons, insertBefore_mem before x ys a,
        List.mem_cons]
      tauto

theorem insertBefore_perm {α : Type} (before : α → α → Bool) (x : α) :
    ∀ l : List α, (insertBefore before x l).Perm (x :: l)
  | [] => List.Perm.refl _
  | y :: ys => by
    simp only [insertBefore]
    by_cases hb : before x y = true
    · rw [if_pos hb]
    · rw [if_neg hb]
      exact List.Perm.trans
        (List.Perm.cons y (insertBefore_perm before x ys))
        (List.Perm.swap x y ys)

theorem stableSort_perm {α : Type} (before : α → α → Bool) :
    ∀ l : List α, (stableSort before l).Perm l
  | [] => List.Perm.refl _
  | x :: xs => by
    simp only [stableSort]
    exact List.Perm.trans (insertBefore_perm before x (stableSort before xs))
      (List.Perm.cons x (stableSort_perm before xs))

theorem insertBefore_pairwise_conf (x : WordScoreResult) :
    ∀ l : List WordScoreResult,
      l.Pairwise (fun a b => b.confidence ≤ a.confidence) →
      (insertBefore byConfidenceDesc x l).Pairwise
        (fun a b => b.confidence ≤ a.confidence)
  | [], _ => by simp [insertBefore]
  | y :: ys, h => by
    obtain ⟨hy, hys⟩ := List.pairwise_cons.mp h
    simp only [insertBefore]
    by_cases hb : byConfidenceDesc x y = true
    · have hlt : y.confidence < x.confidence := by
        simpa [byConfidenceDesc] using hb
      rw [if_pos hb, List.pairwise_cons]
      constructor
      · intro b hb2
        rcases List.mem_cons.mp hb2 with h2 | h2
        · subst h2
          exact le_of_lt hlt
        · exact le_trans (hy b h2) (le_of_lt hlt)
      · exact h
    · have hle : x.confidence ≤ y.confidence :=
        le_of_not_lt (by simpa [byConfidenceDesc] using hb)
      rw [if_neg hb, List.pairwise_cons]
      constructor
      · intro b hb2
        rcases (insertBefore_mem byConfidenceDesc x ys b).mp hb2 with h2 | h2
        · subst h2
          exact hle
        · exact hy b h2
      · exact insertBefore_pairwise_conf x ys hys

theorem stableSort_pairwise_conf :
    ∀ l : List WordScoreResult,
      (stableSort byConfidenceDesc l).Pairwise
        (fun a b => b.confidence ≤ a.confidence)
  | [] => by simp [stableSort]
  | x :: xs => by
    simp only [stableSort]
    exact insertBefore_pairwise_conf x _ (stableSort_pairwise_conf xs)

theorem wordScore_le (candidateWords : List Word) (w : Word) :
    wordScore candidateWords w ≤ w.length * candidateWords.length := by
  unfold wordScore
  have hb : ∀ x ∈ w.enum.map fun p => countLetterAt candidateWords p.1 p.2,
      x ≤ candidateWords.length := by
    intro x hx
    obtain ⟨p, _, hpe⟩ := List.mem_map.mp hx
    rw [← hpe]
    exact List.countP_le_length _
  have := List.sum_le_card_nsmul _ _ hb
  simpa [smul_eq_mul, List.enum_length] using this

theorem sum_all_eq_of_le :
    ∀ (l : List ℕ) (n : ℕ), (∀ x ∈ l, x ≤ n) → l.sum = l.length * n →
      ∀ x ∈ l, x = n
  | [], _, _, _, x, hx => absurd hx (List.not_mem_nil x)
  | a :: t, n, hb, hs, x, hx => by
    have hta : a ≤ n := hb a (List.mem_cons_self _ _)
    have htsum : t.sum ≤ t.length * n := by
      have := List.sum_le_card_nsmul t n fun y hy =>
        hb y (List.mem_cons_of_mem _ hy)
      simpa [smul_eq_mul] using this
    rw [List.sum_cons, List.length_cons] at hs
    have hmul : (t.length + 1) * n = t.length * n + n := by ring
    rw [hmul] at hs
    have ha : a = n ∧ t.sum = t.length * n := by
      set T := t.length * n with hT
      omega
    rcases List.mem_cons.mp hx with h | h
    · rw [h]
      exact ha.1
    · exact sum_all_eq_of_le t n
        (fun y hy => hb y (List.mem_cons_of_mem _ hy)) ha.2 x h

/-- C5 amended: for a nonempty list of equal-length candidates of
POSITIVE length, the Scorer succeeds, every confidence lies in [0, 1],
the head of the result has maximal confidence, and its confidence is 1
iff all candidates carry identical letters at every position. (For
length-0 words the confidence is 0/0, so the iff fails; see the
counterexample.) -/
theorem determineWordsScores_correct (candidateWords : List Word) (L : Nat)
    (hne : candidateWords ≠ []) (hL : 0 < L)
    (hlen : ∀ w ∈ candidateWords, w.length = L) :
    ∃ top rest, determineWordsScores candidateWords = .ok (top :: rest) ∧
      (∀ s ∈ top :: rest, 0 ≤ s.confidence ∧ s.confidence ≤ 1) ∧
      (∀ s ∈ rest, s.confidence ≤ top.confidence) ∧
      (top.confidence = 1 ↔
        ∀ i < L, ∀ w1 ∈ candidateWords, ∀ w2 ∈ candidateWords,
          w1.get? i = w2.get? i) := by
  rcases candidateWords with _ | ⟨w0, ws⟩
  · exact absurd rfl hne
  have hdedup : dedupFirst ((w0 :: ws).map List.length) = [L] := by
    apply dedupFirst_const
    · simp
    · intro a ha
      obtain ⟨w, hw, hwa⟩ := List.mem_map.mp ha
      rw [← hwa]
      exact hlen w hw
  have hw0 : w0.length = L := hlen w0 (List.mem_cons_self _ _)
  have hwl : (((w0 :: ws).head?.map List.length).getD 0) = L := by
    simp [hw0]
  have hmkdiv : ∀ (a b : Nat), mkRat a b = (a : ℚ) / (b : ℚ) := by
    intro a b
    rw [Rat.mkRat_eq_div, Int.cast_natCast]
  have hres : determineWordsScores (w0 :: ws) = .ok
      (stableSort byConfidenceDesc ((w0 :: ws).map fun w =>
        { word := w
          confidence := (wordScore (w0 :: ws) w : ℚ) /
            (((w0 :: ws).length * L : Nat) : ℚ) })) := by
    unfold determineWordsScores
    rw [if_neg (by simp), if_neg (by rw [hdedup]; simp)]
    simp only [hwl, hmkdiv]
  set scored := (w0 :: ws).map fun w =>
    ({ word := w
       confidence := (wordScore (w0 :: ws) w : ℚ) /
         (((w0 :: ws).length * L : Nat) : ℚ) } : WordScoreResult)
    with hscored
  have hdpos : (0 : ℚ) < (((w0 :: ws).length * L : Nat) : ℚ) := by
    have h2 : 0 < (w0 :: ws).length * L :=
      Nat.mul_pos (by simp) hL
    exact_mod_cast h2
  have hbound : ∀ s ∈ scored, 0 ≤ s.confidence ∧ s.confidence ≤ 1 := by
    intro s hs
    obtain ⟨w, hw, rfl⟩ := List.mem_map.mp hs
    constructor
    · exact div_nonneg (by positivity) (le_of_lt hdpos)
    · rw [div_le_one hdpos]
      have h3 := wordScore_le (w0 :: ws) w
      rw [hlen w hw] at h3
      have hle : wordScore (w0 :: ws) w ≤ (w0 :: ws).length * L := by
        rw [Nat.mul_comm]
        exact h3
      exact_mod_cast hle
  rcases hsort : stableSort byConfidenceDesc scored with _ | ⟨top, rest⟩
  · exfalso
    have hperm := stableSort_perm byConfidenceDesc scored
    rw [hsort] at hperm
    have h4 := hperm.length_eq
    simp [hscored] at h4
  have hperm := stableSort_perm byConfidenceDesc scored
  rw [hsort] at hperm
  have hpair := stableSort_pairwise_conf scored
  rw [hsort] at hpair
  have htop_mem : top ∈ scored := hperm.mem_iff.mp (List.mem_cons_self _ _)
  obtain ⟨wt, hwt, htopeq⟩ := List.mem_map.mp htop_mem
  have hwtlen : wt.length = L := hlen wt hwt
  refine ⟨top, rest, by rw [hres, hsort], ?_, ?_, ?_⟩
  · intro s hs
    exact hbound s (hperm.mem_iff.mp hs)
  · intro s hs
    exact (List.pairwise_cons.mp hpair).1 s hs
  · constructor
    · intro h1 i hi w1 hw1 w2 hw2
      have hconf : (wordScore (w0 :: ws) wt : ℚ) /
          (((w0 :: ws).length * L : Nat) : ℚ) = 1 := by
        rw [show (wordScore (w0 :: ws) wt : ℚ) /
            (((w0 :: ws).length * L : Nat) : ℚ) = top.confidence from by
          rw [← htopeq]]
        exact h1
      rw [div_eq_one_iff_eq (ne_of_gt hdpos)] at hconf
      have hscore : wordScore (w0 :: ws) wt = (w0 :: ws).length * L := by
        exact_mod_cast hconf
      have hall : ∀ x ∈ wt.enum.map fun p =>
          countLetterAt (w0 :: ws) p.1 p.2, x = (w0 :: ws).length := by
        apply sum_all_eq_of_le
        · intro x hx
          obtain ⟨p, _, hpe⟩ := List.mem_map.mp hx
          rw [← hpe]
          exact List.countP_le_length _
        · have hszl : (wt.enum.map fun p =>
              countLetterAt (w0 :: ws) p.1 p.2).length = L := by
            simp [List.enum_length, hwtlen]
          rw [hszl]
          show wordScore (w0 :: ws) wt = L * (w0 :: ws).length
          rw [hscore]
          exact Nat.mul_comm _ _
      have hilt : i < wt.length := by rw [hwtlen]; exact hi
      have hgetwt : wt.get? i = some (wt.get ⟨i, hilt⟩) :=
        List.get?_eq_get hilt
      have hmemenum : ((i, wt.get ⟨i, hilt⟩) : Nat × Char) ∈ wt.enum := by
        rw [List.mem_enum_iff_getElem?, ← List.get?_eq_getElem?]
        exact hgetwt
      have hcnt : countLetterAt (w0 :: ws) i (wt.get ⟨i, hilt⟩) =
          (w0 :: ws).length :=
        hall _ (List.mem_map.mpr ⟨(i, wt.get ⟨i, hilt⟩), hmemenum, rfl⟩)
      unfold countLetterAt at hcnt
      have hallu : ∀ u ∈ w0 :: ws, u.get? i = some (wt.get ⟨i, hilt⟩) := by
        intro u hu
        have h5 := List.countP_eq_length.mp hcnt u hu
        exact eq_of_beq h5
      rw [hallu w1 hw1, hallu w2 hw2]
    · intro hpos
      rw [show top.confidence = (wordScore (w0 :: ws) wt : ℚ) /
          (((w0 :: ws).length * L : Nat) : ℚ) from by rw [← htopeq]]
      rw [div_eq_one_iff_eq (ne_of_gt hdpos)]
      have hsc : wordScore (w0 :: ws) wt = (w0 :: ws).length * L := by
        unfold wordScore
        have hsums : ∀ x ∈ wt.enum.map fun p =>
            countLetterAt (w0 :: ws) p.1 p.2, x = (w0 :: ws).length := by
          intro x hx
          obtain ⟨⟨i, ci⟩, hpmem, hpe⟩ := List.mem_map.mp hx
          rw [List.mem_enum_iff_getElem?] at hpmem
          have hiL : i < L := by
            have h6 := (List.getElem?_eq_some.mp hpmem).1
            rw [hwtlen] at h6
            exact h6
          rw [← hpe]
          unfold countLetterAt
          rw [List.countP_eq_length]
          intro u hu
          have h7 := hpos i hiL u hu wt hwt
          rw [beq_iff_eq, h7, List.get?_eq_getElem?]
          exact hpmem
        have h8 := List.sum_eq_card_nsmul _ _ hsums
        rw [h8]
        simp [smul_eq_mul, List.enum_length, hwtlen]
        exact Nat.mul_comm _ _
      exact_mod_cast hsc

theorem determineWordsScores_correct_witness :
    ∃ top rest, determineWordsScores [wordA] = .ok (top :: rest) ∧
      (∀ s ∈ top :: rest, 0 ≤ s.confidence ∧ s.confidence ≤ 1) ∧
      (∀ s ∈ rest, s.confidence ≤ top.confidence) ∧
      (top.confidence = 1 ↔
        ∀ i < 5, ∀ w1 ∈ [wordA], ∀ w2 ∈ [wordA], w1.get? i = w2.get? i) :=
  determineWordsScores_correct [wordA] 5 (by decide) (by decide) (by decide)

/-- C5 counterexample: the singleton list containing the empty word is a
nonempty equal-length candidate list whose unique (hence highest-ranked)
result has confidence 0, not 1, although all candidates trivially share
identical letters at every position. -/
theorem determineWordsScores_counterexample :
    determineWordsScores [([] : Word)] =
      .ok [{ word := [], confidence := 0 }] ∧ (0 : ℚ) ≠ 1 := by
  constructor
  · rfl
  · decide

/-- C4 counterexample: on the empty board at index 0 the missing-letter
counts are equal (5 and 5); with one horizontal candidate and one
vertical candidate, both of confidence exactly 1, the engine returns the
VERTICAL word, not the horizontal one: the strict `>` in
`determineBestWordOverall` sends exact ties to vertical. -/
theorem determineBestWordOverall_tie_counterexample :
    determineBestWordOverallF emptyEnv 1 [wordA] [wordB] tieState =
      .ok (some ⟨wordB, 1, Direction.vertical⟩) ∧
    Direction.vertical ≠ Direction.horizontal := by
  constructor
  · rfl
  · decide

/-- C4 amended: in the equal-missing-count case, when both directions
produce best words of exactly equal confidence, `determineBestWordOverall`
returns the vertical word (ties favor vertical, not horizontal). -/
theorem determineBestWordOverall_tie (wl : WordLists) (fuel : Nat)
    (candH candV : List Word) (bs : BoardState)
    (rh rv : WordScoreResult)
    (hmiss : missingCount (getCurrentCells bs).horizontal =
      missingCount (getCurrentCells bs).vertical)
    (hH : determineBestWordF wl fuel candH bs .horizontal = .ok (some rh))
    (hV : determineBestWordF wl fuel candV bs .vertical = .ok (some rv))
    (hconf : rh.confidence = rv.confidence) :
    determineBestWordOverallF wl fuel candH candV bs =
      .ok (some ⟨rv.word, rv.confidence, Direction.vertical⟩) := by
  unfold determineBestWordF at hH hV
  unfold determineBestWordOverallF determineBestWordOverallBody
  rw [if_neg (by omega), if_neg (by omega)]
  unfold overallSection
  rw [hH, hV]
  have hngt : ¬ ((some rh).map (fun r => r.confidence)).getD 0 >
      ((some rv).map (fun r => r.confidence)).getD 0 := by
    simp [hconf]
  simp only [if_neg hngt]
  rfl

theorem determineBestWordOverall_tie_witness :
    determineBestWordOverallF emptyEnv 2 [wordB] [wordB] tieState =
      .ok (some ⟨wordB, 1, Direction.vertical⟩) :=
  determineBestWordOverall_tie emptyEnv 2 [wordB] [wordB] tieState
    ⟨wordB, 1⟩ ⟨wordB, 1⟩ (by decide) (by rfl) (by rfl) (by decide)

/-- The filter the feasibility check inspects at `index`: the line on
the axis opposite to the candidate's direction, built against the
simulated board with the decremented guess counter. -/
def oppositeFilter (direction : Direction) (bs : BoardState) (b : Board)
    (index : Nat) : WordsFilter :=
  let wordsFilters := createWordsFilters
    { bs with
      board := b
      nextGuessIndex := index
      guessesRemaining := bs.guessesRemaining - 1 }
  if direction = .horizontal then wordsFilters.vertical
  else wordsFilters.horizontal

/-- C2: when the simulated insertion succeeds with board `b`,
`checkIfWordFits` returns `true` if `b` is full, and otherwise returns
`false` exactly when one of the three guess indexes has an
opposite-axis filter retaining no word of the corpus. -/
theorem checkIfWordFits_correct (word : Word) (direction : Direction)
    (bs : BoardState) (allWords : List Word) (b : Board)
    (hins : insertWordInBoard bs word direction = .ok b) :
    ∃ r, checkIfWordFits word direction bs allWords = .ok r ∧
      (isBoardFull b = true → r = true) ∧
      (isBoardFull b = false →
        (r = false ↔ ∃ index ∈ ([0, 2, 4] : List Nat),
          applyWordsFilter allWords
            (oppositeFilter direction bs b index) = [])) := by
  have hstep : checkIfWordFits word direction bs allWords =
      if isBoardFull b = true then Except.ok true
      else .ok ([0, 2, 4].all fun index =>
        !(applyWordsFilter allWords
          (oppositeFilter direction bs b index)).isEmpty) := by
    unfold checkIfWordFits
    rw [hins]
    rfl
  rcases hfull : isBoardFull b with _ | _
  · rw [hfull] at hstep
    rw [if_neg Bool.false_ne_true] at hstep
    refine ⟨_, hstep, ?_, ?_⟩
    · intro h
      exact absurd h Bool.false_ne_true
    · intro _
      rw [List.all_eq_false]
      constructor
      · rintro ⟨index, hmem, hp⟩
        refine ⟨index, hmem, ?_⟩
        rw [← List.isEmpty_iff]
        rcases hb : (applyWordsFilter allWords
            (oppositeFilter direction bs b index)).isEmpty with _ | _
        · exact absurd (by rw [hb]; rfl) hp
        · rfl
      · rintro ⟨index, hmem, hp⟩
        refine ⟨index, hmem, ?_⟩
        have hemp : (applyWordsFilter allWords
            (oppositeFilter direction bs b index)).isEmpty = true :=
          List.isEmpty_iff.mpr hp
        intro hcon
        rw [hemp] at hcon
        exact Bool.false_ne_true (by simp at hcon)
  · rw [hfull] at hstep
    rw [if_pos rfl] at hstep
    refine ⟨true, hstep, fun _ => rfl, ?_⟩
    intro h
    exact absurd h.symm Bool.false_ne_true

theorem checkIfWordFits_correct_witness :
    ∃ r, checkIfWordFits wordA .horizontal tieState [] = .ok r ∧
      (isBoardFull insertedA = true → r = true) ∧
      (isBoardFull insertedA = false →
        (r = false ↔ ∃ index ∈ ([0, 2, 4] : List Nat),
          applyWordsFilter []
            (oppositeFilter .horizontal tieState insertedA index) = [])) :=
  checkIfWordFits_correct wordA .horizontal tieState [] insertedA (by rfl)

theorem createWordsFilters_guesses (g1 g2 : Int) (i : Nat) (l : Language)
    (bd : Board) :
    createWordsFilters ⟨g1, i, l, bd⟩ = createWordsFilters ⟨g2, i, l, bd⟩ :=
  rfl

theorem checkIfWordFits_guesses (w : Word) (d : Direction) (g1 g2 : Int)
    (i : Nat) (l : Language) (bd : Board) (aw : List Word) :
    checkIfWordFits w d ⟨g1, i, l, bd⟩ aw =
      checkIfWordFits w d ⟨g2, i, l, bd⟩ aw := rfl

theorem filterFits_guesses (d : Direction) (g1 g2 : Int) (i : Nat)
    (l : Language) (bd : Board) (aw : List Word) :
    ∀ ws, filterFits d ⟨g1, i, l, bd⟩ aw ws =
      filterFits d ⟨g2, i, l, bd⟩ aw ws
  | [] => rfl
  | w :: rest => by
    simp only [filterFits]
    rw [checkIfWordFits_guesses w d g1 g2 i l bd aw,
      filterFits_guesses d g1 g2 i l bd aw rest]

theorem simLoop_guesses (recur : RecurFn)
    (hrec : ∀ (g1 g2 : Int) (i : Nat) (l : Language) (bd : Board),
      recur ⟨g1, i, l, bd⟩ = recur ⟨g2, i, l, bd⟩)
    (g1 g2 : Int) (gi : Nat) (lang : Language) (bd : Board) :
    ∀ (steps i : Nat) (simBd : Board) (idx : Nat)
      (sw : WordScoreResultDirection),
      simLoop recur ⟨g1, gi, lang, bd⟩ steps i simBd idx sw =
        simLoop recur ⟨g2, gi, lang, bd⟩ steps i simBd idx sw
  | 0, _, _, _, _ => rfl
  | steps + 1, i, simBd, idx, sw => by
    have IH : ∀ (i2 : Nat) (simBd2 : Board) (idx2 : Nat)
        (sw2 : WordScoreResultDirection),
        simLoop recur ⟨g1, gi, lang, bd⟩ steps i2 simBd2 idx2 sw2 =
          simLoop recur ⟨g2, gi, lang, bd⟩ steps i2 simBd2 idx2 sw2 :=
      fun i2 simBd2 idx2 sw2 =>
        simLoop_guesses recur hrec g1 g2 gi lang bd steps i2 simBd2 idx2 sw2
    have hins : ∀ (idx2 : Nat) (simBd2 : Board),
        insertWordInBoard ⟨g1, idx2, lang, simBd2⟩ sw.word sw.direction =
          insertWordInBoard ⟨g2, idx2, lang, simBd2⟩ sw.word sw.direction :=
      fun _ _ => rfl
    have hr : ∀ (i2 : Nat) (l2 : Language) (bd2 : Board),
        recur ⟨g1 - (i : Int) - 1, i2, l2, bd2⟩ =
          recur ⟨g2 - (i : Int) - 1, i2, l2, bd2⟩ :=
      fun i2 l2 bd2 => hrec _ _ i2 l2 bd2
    simp only [simLoop, hins, hr, IH]

theorem wordLoop_guesses (recur : RecurFn)
    (hrec : ∀ (g1 g2 : Int) (i : Nat) (l : Language) (bd : Board),
      recur ⟨g1, i, l, bd⟩ = recur ⟨g2, i, l, bd⟩)
    (g1 g2 : Int) (gi : Nat) (lang : Language) (bd : Board)
    (d : Direction) :
    ∀ scores, wordLoop recur ⟨g1, gi, lang, bd⟩ d scores =
      wordLoop recur ⟨g2, gi, lang, bd⟩ d scores
  | [] => rfl
  | ws :: rest => by
    simp only [wordLoop]
    rw [simLoop_guesses recur hrec g1 g2 gi lang bd 6 0 bd gi
      ⟨ws.word, ws.confidence, d⟩]
    cases simLoop recur ⟨g2, gi, lang, bd⟩ 6 0 bd gi
        ⟨ws.word, ws.confidence, d⟩ with
    | error e => rfl
    | ok valid =>
      cases valid with
      | true => rfl
      | false =>
        simp only [if_neg]
        exact wordLoop_guesses recur hrec g1 g2 gi lang bd d rest

theorem determineBestWordBody_guesses (recur : RecurFn)
    (hrec : ∀ (g1 g2 : Int) (i : Nat) (l : Language) (bd : Board),
      recur ⟨g1, i, l, bd⟩ = recur ⟨g2, i, l, bd⟩)
    (cands : List Word) (g1 g2 : Int) (gi : Nat) (lang : Language)
    (bd : Board) (d : Direction) :
    determineBestWordBody recur cands ⟨g1, gi, lang, bd⟩ d =
      determineBestWordBody recur cands ⟨g2, gi, lang, bd⟩ d := by
  unfold determineBestWordBody
  cases determineWordsScores cands with
  | error e => rfl
  | ok scores =>
    cases scores with
    | nil => rfl
    | cons top tail =>
      by_cases hc : top.confidence = 1
      · simp only [if_pos hc]
      · simp only [if_neg hc]
        exact wordLoop_guesses recur hrec g1 g2 gi lang bd d (top :: tail)

theorem overallSection_guesses (recur : RecurFn)
    (hrec : ∀ (g1 g2 : Int) (i : Nat) (l : Language) (bd : Board),
      recur ⟨g1, i, l, bd⟩ = recur ⟨g2, i, l, bd⟩)
    (candH candV : List Word) (g1 g2 : Int) (gi : Nat) (lang : Language)
    (bd : Board) :
    overallSection recur candH candV ⟨g1, gi, lang, bd⟩ =
      overallSection recur candH candV ⟨g2, gi, lang, bd⟩ := by
  unfold overallSection
  rw [determineBestWordBody_guesses recur hrec candH g1 g2 gi lang bd
    .horizontal,
    determineBestWordBody_guesses recur hrec candV g1 g2 gi lang bd
    .vertical]

theorem determineBestWordOverallBody_guesses (recur : RecurFn)
    (hrec : ∀ (g1 g2 : Int) (i : Nat) (l : Language) (bd : Board),
      recur ⟨g1, i, l, bd⟩ = recur ⟨g2, i, l, bd⟩)
    (candH candV : List Word) (g1 g2 : Int) (gi : Nat) (lang : Language)
    (bd : Board) :
    determineBestWordOverallBody recur candH candV ⟨g1, gi, lang, bd⟩ =
      determineBestWordOverallBody recur candH candV ⟨g2, gi, lang, bd⟩ := by
  unfold determineBestWordOverallBody
  rw [show (getCurrentCells ⟨g1, gi, lang, bd⟩) =
      (getCurrentCells ⟨g2, gi, lang, bd⟩) from rfl]
  rw [determineBestWordBody_guesses recur hrec candH g1 g2 gi lang bd
    .horizontal,
    determineBestWordBody_guesses recur hrec candV g1 g2 gi lang bd
    .vertical,
    overallSection_guesses recur hrec candH candV g1 g2 gi lang bd]

theorem returnNextGuessBody_guesses (wl : WordLists) (recur : RecurFn)
    (hrec : ∀ (g1 g2 : Int) (i : Nat) (l : Language) (bd : Board),
      recur ⟨g1, i, l, bd⟩ = recur ⟨g2, i, l, bd⟩)
    (g1 g2 : Int) (gi : Nat) (lang : Language) (bd : Board) :
    returnNextGuessBody wl recur ⟨g1, gi, lang, bd⟩ =
      returnNextGuessBody wl recur ⟨g2, gi, lang, bd⟩ := by
  have hff : ∀ (d : Direction) (aw ws : List Word),
      filterFits d ⟨g1, gi, lang, bd⟩ aw ws =
        filterFits d ⟨g2, gi, lang, bd⟩ aw ws :=
    fun d aw ws => filterFits_guesses d g1 g2 gi lang bd aw ws
  have hcwf : createWordsFilters ⟨g1, gi, lang, bd⟩ =
      createWordsFilters ⟨g2, gi, lang, bd⟩ := rfl
  have hov : ∀ candH candV : List Word,
      determineBestWordOverallBody recur candH candV ⟨g1, gi, lang, bd⟩ =
        determineBestWordOverallBody recur candH candV ⟨g2, gi, lang, bd⟩ :=
    fun candH candV =>
      determineBestWordOverallBody_guesses recur hrec candH candV
        g1 g2 gi lang bd
  simp only [returnNextGuessBody, hcwf, hff, hov]

theorem returnNextGuessF_guesses (wl : WordLists) :
    ∀ (fuel : Nat) (g1 g2 : Int) (i : Nat) (l : Language) (bd : Board),
      returnNextGuessF wl fuel ⟨g1, i, l, bd⟩ =
        returnNextGuessF wl fuel ⟨g2, i, l, bd⟩
  | 0, _, _, _, _, _ => rfl
  | fuel + 1, g1, g2, i, l, bd => by
    simp only [returnNextGuessF]
    exact returnNextGuessBody_guesses wl (returnNextGuessF wl fuel)
      (returnNextGuessF_guesses wl fuel) g1 g2 i l bd

/-- C10: `playNextGuess` ignores `guessesRemaining`: two game states
identical except for that counter (which is decremented when building
simulated states but never read to gate any decision) produce exactly
the same result, whatever it is. -/
theorem playNextGuess_guesses_independent (wl : WordLists) (fuel : Nat)
    (bs : BoardState) (g : Int) :
    playNextGuessF wl fuel { bs with guessesRemaining := g } =
      playNextGuessF wl fuel bs := by
  rcases bs with ⟨g0, i, l, bd⟩
  show playNextGuessF wl fuel ⟨g, i, l, bd⟩ =
    playNextGuessF wl fuel ⟨g0, i, l, bd⟩
  unfold playNextGuessF
  rw [returnNextGuessF_guesses wl fuel g g0 i l bd]

end Squardle
